import Mathlib

/-!
Verification of the Quine-McCluskey boolean-function minimizer
(`henryhchchc/quine-mccluskey`).

The public entry points, input validation, don't-care computation,
prime-implicant orchestration loop and the final coverage check live in
`src/lib.rs` and are translated directly.  The submodules `implicant.rs`,
`group.rs`, `prime_implicant_chart.rs`, `petrick.rs` and `solution.rs` are
not part of the sources; their operations are modelled from the
specification (sections 3, 4.1-4.5 and 6) and each such definition is
marked `Modelled from the spec:` in its doc comment.

Iterative loops of the source are rendered as structurally recursive
functions on an explicit fuel argument so that they evaluate inside the
kernel; exhausting the fuel models non-termination / a panic and is proved
unreachable where a claim depends on it.
-/

namespace QMC

/-- Number of set bits of the binary representation, computed with a fuel
argument (`fuel ≥ n` is always sufficient). -/
def popcountAux : Nat → Nat → Nat
  | 0, _ => 0
  | _ + 1, 0 => 0
  | fuel + 1, n + 1 => (n + 1) % 2 + popcountAux fuel ((n + 1) / 2)

/-- Number of set bits of a natural number (binary popcount). -/
def popcount (n : Nat) : Nat := popcountAux n n

theorem popcountAux_eq (fuel n : Nat) (h : n ≤ fuel) :
    popcountAux fuel n = popcount n := by
  induction fuel using Nat.strong_induction_on generalizing n with
  | _ fuel ih =>
    match fuel, n with
    | 0, n =>
      interval_cases n
      rfl
    | fuel + 1, 0 => rfl
    | fuel + 1, n + 1 =>
      show (n + 1) % 2 + popcountAux fuel ((n + 1) / 2) = popcountAux (n + 1) (n + 1)
      show _ = (n + 1) % 2 + popcountAux n ((n + 1) / 2)
      have hd : (n + 1) / 2 ≤ n := by omega
      rw [ih fuel (by omega) _ (by omega), ih n (by omega) _ hd]

theorem popcount_succ (n : Nat) :
    popcount (n + 1) = (n + 1) % 2 + popcount ((n + 1) / 2) := by
  show (n + 1) % 2 + popcountAux n ((n + 1) / 2) = _
  rw [popcountAux_eq n _ (by omega)]

theorem popcount_eq (n : Nat) (h : n ≠ 0) :
    popcount n = n % 2 + popcount (n / 2) := by
  cases n with
  | zero => exact absurd rfl h
  | succ m => exact popcount_succ m

theorem popcount_eq_zero_iff (n : Nat) : popcount n = 0 ↔ n = 0 := by
  constructor
  · intro h
    induction n using Nat.strong_induction_on with
    | _ n ih =>
      cases n with
      | zero => rfl
      | succ m =>
        rw [popcount_succ m] at h
        have h1 : (m + 1) % 2 = 0 := Nat.eq_zero_of_add_eq_zero_right h
        have h2 : popcount ((m + 1) / 2) = 0 := Nat.eq_zero_of_add_eq_zero_left h
        have hlt : (m + 1) / 2 < m + 1 := Nat.div_lt_self (Nat.succ_pos m) (by omega)
        have := ih _ hlt h2
        omega
  · intro h; subst h; rfl

theorem popcount_eq_one (n : Nat) (h : popcount n = 1) : ∃ k, n = 2 ^ k := by
  induction n using Nat.strong_induction_on with
  | _ n ih =>
    cases n with
    | zero => simp [popcount, popcountAux] at h
    | succ m =>
      rw [popcount_succ m] at h
      have hlt : (m + 1) / 2 < m + 1 := Nat.div_lt_self (Nat.succ_pos m) (by omega)
      rcases Nat.eq_zero_or_pos ((m + 1) % 2) with h0 | h1
      · -- even: the low bit is clear and the upper half has a single set bit
        have hp : popcount ((m + 1) / 2) = 1 := by omega
        obtain ⟨k, hk⟩ := ih _ hlt hp
        refine ⟨k + 1, ?_⟩
        have hsplit : m + 1 = 2 * ((m + 1) / 2) := by omega
        rw [hsplit, hk, Nat.pow_succ]; ring
      · -- odd: the low bit is the single set bit, so the number is one
        have hm2 : (m + 1) % 2 = 1 := by omega
        have hp : popcount ((m + 1) / 2) = 0 := by
          have : (m + 1) % 2 + popcount ((m + 1) / 2) = 1 := h
          omega
        have hz := (popcount_eq_zero_iff _).mp hp
        have : m + 1 = 1 := by omega
        exact ⟨0, by omega⟩

end QMC

namespace QMC

/-- Modelled from the spec (`implicant.rs` is absent): an implicant is a pair
of bit patterns of width `n` — a value pattern and an eliminated-position
mask; value bits are meaningful only where not masked and are kept
normalized to `0` at eliminated positions so that implicants can be
compared and deduplicated by structural equality (spec §3). -/
structure Implicant where
  value : Nat
  mask : Nat
deriving DecidableEq, Repr

namespace Implicant

/-- Modelled from the spec: `fromTerm(t)` builds an implicant with no
eliminated positions and value equal to the bit pattern of `t` (§4.1). -/
def fromTerm (t : Nat) : Implicant := ⟨t, 0⟩

/-- Modelled from the spec: two implicants combine iff they have identical
eliminated-position masks and differ in exactly one non-eliminated position
(§4.1).  Values are normalized (zero at eliminated positions), so the
differing positions are exactly the set bits of the value xor. -/
def combinable (a b : Implicant) : Bool :=
  a.mask == b.mask && popcount (a.value ^^^ b.value) == 1

/-- Modelled from the spec: on success the combined implicant has the
differing position added to the eliminated mask and the value unchanged
elsewhere (normalized to `0` at the new eliminated position) (§4.1). -/
def combine (a b : Implicant) : Option Implicant :=
  if combinable a b then
    some ⟨a.value &&& b.value, a.mask ||| (a.value ^^^ b.value)⟩
  else
    none

/-- Modelled from the spec: `coveredTerms()` is the exact set of terms
covered by the implicant — all terms of width `n` agreeing with the value
pattern at every non-eliminated position (§4.1). -/
def coveredTerms (n : Nat) (imp : Implicant) : Finset Nat :=
  (Finset.range (2 ^ n)).filter fun t => t ||| imp.mask = imp.value ||| imp.mask

/-- Well-formedness invariant maintained throughout a run (spec §3): the
patterns have width `n` and the value is normalized at eliminated
positions. -/
def Wf (n : Nat) (imp : Implicant) : Prop :=
  imp.value < 2 ^ n ∧ imp.mask < 2 ^ n ∧ imp.value &&& imp.mask = 0

instance (n : Nat) (imp : Implicant) : Decidable (Wf n imp) := by
  unfold Wf; infer_instance

/-- Modelled from the spec: the pattern string of an implicant, one
character per position from the most significant to the least significant
bit — `-` at eliminated positions, otherwise the fixed bit value (§8,
scenario C). -/
def pattern (n : Nat) (imp : Implicant) : String :=
  String.mk (((List.range n).reverse).map fun i =>
    if imp.mask.testBit i then '-'
    else if imp.value.testBit i then '1' else '0')

theorem combinable_iff {a b : Implicant} :
    combinable a b = true ↔ a.mask = b.mask ∧ popcount (a.value ^^^ b.value) = 1 := by
  unfold combinable
  simp

theorem combinable_symm (a b : Implicant) : combinable a b = combinable b a := by
  rcases Bool.eq_false_or_eq_true (combinable b a) with h | h
  · rw [h]
    rw [combinable_iff] at h ⊢
    exact ⟨h.1.symm, by rw [Nat.xor_comm]; exact h.2⟩
  · rw [h]
    rw [Bool.eq_false_iff] at h ⊢
    intro hab
    apply h
    rw [combinable_iff] at hab ⊢
    exact ⟨hab.1.symm, by rw [Nat.xor_comm]; exact hab.2⟩

theorem combine_symm (a b : Implicant) : combine a b = combine b a := by
  unfold combine
  rw [combinable_symm]
  rcases Bool.eq_false_or_eq_true (combinable b a) with h | h
  · simp only [h, if_true]
    have hm : a.mask = b.mask := ((combinable_iff).mp h).1.symm
    rw [Nat.land_comm, Nat.xor_comm, hm]
  · simp [h]

theorem mem_coveredTerms {n : Nat} {imp : Implicant} {t : Nat} :
    t ∈ coveredTerms n imp ↔ t < 2 ^ n ∧ t ||| imp.mask = imp.value ||| imp.mask := by
  unfold coveredTerms
  simp [Finset.mem_filter, Finset.mem_range, and_comm]

/-- Bitwise characterization of coverage: a term is covered iff it agrees
with the value at every non-eliminated position. -/
theorem mem_coveredTerms_iff_bits {n : Nat} {imp : Implicant} {t : Nat} :
    t ∈ coveredTerms n imp ↔
      t < 2 ^ n ∧ ∀ i, imp.mask.testBit i = false → t.testBit i = imp.value.testBit i := by
  rw [mem_coveredTerms]
  refine and_congr_right fun _ => ?_
  constructor
  · intro h i hi
    have hcong := congrArg (fun x => x.testBit i) h
    simp only [Nat.testBit_or, hi, Bool.or_false] at hcong
    exact hcong
  · intro h
    apply Nat.eq_of_testBit_eq
    intro i
    simp only [Nat.testBit_or]
    rcases Bool.eq_false_or_eq_true (imp.mask.testBit i) with hm | hm
    · rw [hm, Bool.or_true, Bool.or_true]
    · rw [h i hm, hm]

theorem coveredTerms_fromTerm {n t : Nat} (ht : t < 2 ^ n) :
    coveredTerms n (fromTerm t) = {t} := by
  ext u
  rw [mem_coveredTerms]
  simp only [fromTerm, Nat.or_zero, Finset.mem_singleton]
  constructor
  · rintro ⟨_, h⟩; exact h
  · rintro rfl; exact ⟨ht, rfl⟩

theorem land_testBit_eq_zero {x y : Nat} (h : x &&& y = 0) (i : Nat) :
    x.testBit i = false ∨ y.testBit i = false := by
  have hb := congrArg (fun z => z.testBit i) h
  simp only [Nat.testBit_and, Nat.zero_testBit] at hb
  rcases Bool.eq_false_or_eq_true (x.testBit i) with hx | hx
  · rw [hx, Bool.true_and] at hb
    exact Or.inr hb
  · exact Or.inl hx

/-- The combination of two well-formed implicants is well-formed. -/
theorem combine_wf {n : Nat} {a b c : Implicant} (ha : Wf n a) (hb : Wf n b)
    (h : combine a b = some c) : Wf n c := by
  unfold combine at h
  rcases Bool.eq_false_or_eq_true (combinable a b) with hc | hc
  · rw [if_pos hc] at h
    obtain ⟨hm, _⟩ := combinable_iff.mp hc
    injection h with h
    subst h
    refine ⟨Nat.and_lt_two_pow _ hb.1, Nat.or_lt_two_pow ha.2.1 (Nat.xor_lt_two_pow ha.1 hb.1), ?_⟩
    apply Nat.eq_of_testBit_eq
    intro i
    simp only [Nat.testBit_and, Nat.testBit_or, Nat.testBit_xor, Nat.zero_testBit]
    rcases Bool.eq_false_or_eq_true (a.value.testBit i) with hva | hva
    case inr => simp [hva]
    rcases Bool.eq_false_or_eq_true (b.value.testBit i) with hvb | hvb
    case inr => simp [hvb]
    have hma : a.mask.testBit i = false := by
      rcases land_testBit_eq_zero ha.2.2 i with h1 | h1
      · rw [h1] at hva; exact absurd hva (by simp)
      · exact h1
    simp [hva, hvb, hma]
  · rw [if_neg (by simp [hc])] at h
    exact absurd h (by simp)

/-- Lossless combination (spec §4.2/§4.3): the combined implicant covers
exactly the union of the covered terms of the two inputs. -/
theorem coveredTerms_combine {n : Nat} {a b c : Implicant}
    (h : combine a b = some c) :
    coveredTerms n c = coveredTerms n a ∪ coveredTerms n b := by
  unfold combine at h
  rcases Bool.eq_false_or_eq_true (combinable a b) with hc | hc
  case inr => rw [if_neg (by simp [hc])] at h; exact absurd h (by simp)
  · rw [if_pos hc] at h
    obtain ⟨hm, hpc⟩ := combinable_iff.mp hc
    obtain ⟨k, hd⟩ := popcount_eq_one _ hpc
    injection h with h
    subst h
    have hdk : (a.value ^^^ b.value).testBit k = true := by
      rw [hd]; exact Nat.testBit_two_pow_self
    have hdi : ∀ i, i ≠ k → (a.value ^^^ b.value).testBit i = false := by
      intro i hik
      rw [hd]; exact Nat.testBit_two_pow_of_ne (Ne.symm hik)
    ext t
    simp only [Finset.mem_union, mem_coveredTerms_iff_bits]
    constructor
    · rintro ⟨ht, hbits⟩
      have hagree : ∀ i, i ≠ k → a.mask.testBit i = false →
          t.testBit i = (a.value &&& b.value).testBit i := by
        intro i hik hmi
        apply hbits
        simp only [Nat.testBit_or, hmi, hdi i hik, Bool.or_false]
      have hab : ∀ i, i ≠ k → (a.value &&& b.value).testBit i = a.value.testBit i := by
        intro i hik
        have hxor := hdi i hik
        simp only [Nat.testBit_xor] at hxor
        have heq : a.value.testBit i = b.value.testBit i := by
          rcases Bool.eq_false_or_eq_true (a.value.testBit i) with h1 | h1 <;>
            rcases Bool.eq_false_or_eq_true (b.value.testBit i) with h2 | h2 <;>
              simp [h1, h2] at hxor ⊢
        simp only [Nat.testBit_and, ← heq, Bool.and_self]
      have hne : a.value.testBit k ≠ b.value.testBit k := by
        simp only [Nat.testBit_xor] at hdk
        rcases Bool.eq_false_or_eq_true (a.value.testBit k) with h1 | h1 <;>
          rcases Bool.eq_false_or_eq_true (b.value.testBit k) with h2 | h2 <;>
            simp [h1, h2] at hdk ⊢
      rcases Decidable.em (t.testBit k = a.value.testBit k) with htk | htk
      · left
        refine ⟨ht, fun i hmi => ?_⟩
        rcases Decidable.em (i = k) with rfl | hik
        · exact htk
        · rw [hagree i hik hmi, hab i hik]
      · right
        have htk' : t.testBit k = b.value.testBit k := by
          rcases Bool.eq_false_or_eq_true (t.testBit k) with h1 | h1 <;>
            rcases Bool.eq_false_or_eq_true (a.value.testBit k) with h2 | h2 <;>
              rcases Bool.eq_false_or_eq_true (b.value.testBit k) with h3 | h3 <;>
                simp_all
        refine ⟨ht, fun i hmi => ?_⟩
        rcases Decidable.em (i = k) with rfl | hik
        · exact htk'
        · rw [← hm] at hmi
          rw [hagree i hik hmi, hab i hik]
          have hxor := hdi i hik
          simp only [Nat.testBit_xor] at hxor
          rcases Bool.eq_false_or_eq_true (a.value.testBit i) with h1 | h1 <;>
            rcases Bool.eq_false_or_eq_true (b.value.testBit i) with h2 | h2 <;>
              simp [h1, h2] at hxor ⊢
    · rintro (⟨ht, hbits⟩ | ⟨ht, hbits⟩)
      · refine ⟨ht, fun i hmi => ?_⟩
        simp only [Nat.testBit_or, Bool.or_eq_false_iff] at hmi
        have heq : a.value.testBit i = b.value.testBit i := by
          have hxor := hmi.2
          simp only [Nat.testBit_xor] at hxor
          rcases Bool.eq_false_or_eq_true (a.value.testBit i) with h1 | h1 <;>
            rcases Bool.eq_false_or_eq_true (b.value.testBit i) with h2 | h2 <;>
              simp [h1, h2] at hxor ⊢
        rw [hbits i hmi.1]
        simp only [Nat.testBit_and, ← heq, Bool.and_self]
      · refine ⟨ht, fun i hmi => ?_⟩
        simp only [Nat.testBit_or, Bool.or_eq_false_iff] at hmi
        have heq : a.value.testBit i = b.value.testBit i := by
          have hxor := hmi.2
          simp only [Nat.testBit_xor] at hxor
          rcases Bool.eq_false_or_eq_true (a.value.testBit i) with h1 | h1 <;>
            rcases Bool.eq_false_or_eq_true (b.value.testBit i) with h2 | h2 <;>
              simp [h1, h2] at hxor ⊢
        rw [hm] at hmi
        rw [hbits i hmi.1]
        simp only [Nat.testBit_and, heq, Bool.and_self]

theorem fromTerm_wf {n t : Nat} (ht : t < 2 ^ n) : Wf n (fromTerm t) :=
  ⟨ht, Nat.pos_pow_of_pos _ (by omega), Nat.and_zero _⟩

theorem combine_eq_some_of_combinable {a b : Implicant} (h : combinable a b = true) :
    combine a b = some ⟨a.value &&& b.value, a.mask ||| (a.value ^^^ b.value)⟩ := by
  unfold combine
  rw [if_pos h]

end Implicant

/-- The form of a boolean expression (src/lib.rs `Form`). -/
inductive Form where
  /-- Sum of Products -/
  | SOP
  /-- Product of Sums -/
  | POS
deriving DecidableEq, Repr

export Form (SOP POS)

/-- Modelled from the spec (`group.rs` is absent): `groupTerms` partitions
the given terms (care terms and don't-cares) into buckets by the popcount
of the term's own bit pattern, one bucket per possible count in ascending
order (§4.2/§4.4).  The `form` argument of the source is only threaded
through to literal rendering and does not influence grouping. -/
def groupTerms (n : Nat) (terms : List Nat) : List (List Implicant) :=
  (List.range (n + 1)).map fun i =>
    (terms.filter fun t => popcount t == i).map Implicant.fromTerm

/-- Modelled from the spec: all successful pairwise combinations between the
members of two adjacent groups, deduplicated by structural equality, forming
one group of the next round (§4.2). -/
def combinePair (g₁ g₂ : List Implicant) : List Implicant :=
  (g₁.flatMap fun a => g₂.filterMap fun b => Implicant.combine a b).dedup

/-- Modelled from the spec: a member of a group is consumed in a round iff
it successfully combines with a member of an adjacent group (§4.1/§4.2). -/
def consumed (prev next : List Implicant) (a : Implicant) : Bool :=
  prev.any (fun b => Implicant.combinable b a) || next.any (fun b => Implicant.combinable a b)

/-- Modelled from the spec: the prime implicants contributed by the current
round — the members not consumed this round whose covered-term set is not a
subset of the don't-care set alone (§4.2), collected in group order as in
`find_prime_implicants` (src/lib.rs).  `prev` is the group preceding the
remaining list. -/
def roundPrimes (n : Nat) (dontCares : Finset Nat) :
    List Implicant → List (List Implicant) → List Implicant
  | _, [] => []
  | prev, g :: rest =>
    g.filter (fun a => !consumed prev (rest.headD []) a
        && !decide (Implicant.coveredTerms n a ⊆ dontCares))
      ++ roundPrimes n dontCares g rest

/-- Modelled from the spec: whether any group of the current round reports
`wasCombined()`, i.e. had a member consumed (§4.2/§4.3). -/
def anyCombined : List Implicant → List (List Implicant) → Bool
  | _, [] => false
  | prev, g :: rest => g.any (consumed prev (rest.headD [])) || anyCombined g rest

/-- The next round's group list: pairwise combination of every pair of
adjacent groups, as in the loop of `find_prime_implicants` (src/lib.rs
lines 414-416). -/
def nextGroups (groups : List (List Implicant)) : List (List Implicant) :=
  (groups.zip groups.tail).map fun p => combinePair p.1 p.2

/-- The round loop of `find_prime_implicants` (src/lib.rs lines 413-429):
compute the next round's groups, collect the current round's prime
implicants, exit when no group had a member consumed.  `none` models the
panic on an empty group list as well as fuel exhaustion; both are proved
unreachable. -/
def fpiLoop (n : Nat) (dontCares : Finset Nat) :
    Nat → List (List Implicant) → List Implicant → Option (List Implicant)
  | 0, _, _ => none
  | _ + 1, [], _ => none
  | fuel + 1, g :: gs, acc =>
    let acc' := acc ++ roundPrimes n dontCares [] (g :: gs)
    if anyCombined [] (g :: gs) then fpiLoop n dontCares fuel (nextGroups (g :: gs)) acc'
    else some acc'

/-- `find_prime_implicants` (src/lib.rs lines 403-432): seed round 0 by
grouping the union of care terms and don't-cares, then iterate the
combination rounds.  The unordered source set is enumerated in ascending
order. -/
def find_prime_implicants (n : Nat) (terms dontCares : Finset Nat) (form : Form) :
    Option (List Implicant) :=
  fpiLoop n dontCares (n + 2)
    (groupTerms n ((List.range (2 ^ n)).filter fun t => decide (t ∈ terms ∪ dontCares))) []

theorem consumed_nil_nil (a : Implicant) : consumed [] [] a = false := rfl

theorem combinePair_nil_left (g : List Implicant) : combinePair [] g = [] := rfl

theorem mem_combinePair {c : Implicant} {g₁ g₂ : List Implicant} :
    c ∈ combinePair g₁ g₂ ↔ ∃ a ∈ g₁, ∃ b ∈ g₂, Implicant.combine a b = some c := by
  unfold combinePair
  simp [List.mem_dedup]

theorem anyCombined_singleton_nil (g : List Implicant) : anyCombined [] [g] = false := by
  show (g.any (consumed [] ([].headD [])) || anyCombined g []) = false
  simp [anyCombined, consumed]

theorem length_nextGroups (gs : List (List Implicant)) :
    (nextGroups gs).length = gs.length - 1 := by
  unfold nextGroups
  rw [List.length_map, List.length_zip, List.length_tail]
  omega

theorem nextGroups_cons_cons (g g' : List Implicant) (r : List (List Implicant)) :
    nextGroups (g :: g' :: r) = combinePair g g' :: nextGroups (g' :: r) := rfl

theorem anyCombined_false_nextGroups {prev : List Implicant} {gs : List (List Implicant)}
    (h : anyCombined prev gs = false) : ∀ q ∈ nextGroups gs, q = [] := by
  induction gs generalizing prev with
  | nil => intro q hq; simp [nextGroups] at hq
  | cons g rest ih =>
    intro q hq
    cases rest with
    | nil => simp [nextGroups] at hq
    | cons g' r =>
      rw [nextGroups_cons_cons] at hq
      have h' : (g.any (consumed prev ((g' :: r).headD [])) || anyCombined g (g' :: r)) = false := h
      rw [Bool.or_eq_false_iff] at h'
      rcases List.mem_cons.mp hq with hq | hq
      · subst hq
        rw [List.eq_nil_iff_forall_not_mem]
        intro c hc
        obtain ⟨a, ha, b, hb, hab⟩ := mem_combinePair.mp hc
        have hcomb : Implicant.combinable a b = true := by
          by_contra hcb
          rw [Bool.not_eq_true] at hcb
          unfold Implicant.combine at hab
          rw [if_neg (by simp [hcb])] at hab
          exact absurd hab (by simp)
        have : g.any (consumed prev ((g' :: r).headD [])) = true := by
          rw [List.any_eq_true]
          refine ⟨a, ha, ?_⟩
          unfold consumed
          have hnext : ((g' :: r).headD []).any (fun b => Implicant.combinable a b) = true := by
            rw [List.any_eq_true]
            exact ⟨b, hb, hcomb⟩
          rw [hnext, Bool.or_true]
        rw [h'.1] at this
        exact absurd this (by simp)
      · exact ih h'.2 q hq

/-- The loop of `find_prime_implicants` always exits through its fixpoint
condition: with a non-empty group list and enough fuel it returns a value. -/
theorem fpiLoop_isSome (n : Nat) (dc : Finset Nat) :
    ∀ fuel gs acc, gs ≠ [] → gs.length ≤ fuel → (fpiLoop n dc fuel gs acc).isSome := by
  intro fuel
  induction fuel with
  | zero =>
    intro gs acc hne hlen
    cases gs with
    | nil => exact absurd rfl hne
    | cons g r => simp at hlen
  | succ fuel ih =>
    intro gs acc hne hlen
    cases gs with
    | nil => exact absurd rfl hne
    | cons g rest =>
      show (if anyCombined [] (g :: rest)
        then fpiLoop n dc fuel (nextGroups (g :: rest)) (acc ++ roundPrimes n dc [] (g :: rest))
        else some (acc ++ roundPrimes n dc [] (g :: rest))).isSome
      rcases Bool.eq_false_or_eq_true (anyCombined [] (g :: rest)) with hcb | hcb
      · cases rest with
        | nil => rw [anyCombined_singleton_nil] at hcb; exact absurd hcb (by simp)
        | cons g' r =>
          rw [if_pos hcb]
          apply ih
          · have : (nextGroups (g :: g' :: r)).length = r.length + 1 := by
              rw [length_nextGroups]; simp
            intro hnil
            rw [hnil] at this
            simp at this
          · rw [length_nextGroups]
            simp only [List.length_cons] at hlen ⊢
            omega
      · rw [if_neg (by simp [hcb])]
        rfl

theorem roundPrimes_subset {n : Nat} {dc : Finset Nat} :
    ∀ {prev : List Implicant} {gs : List (List Implicant)} {p : Implicant},
      p ∈ roundPrimes n dc prev gs → ∃ g ∈ gs, p ∈ g := by
  intro prev gs
  induction gs generalizing prev with
  | nil => intro p hp; simp [roundPrimes] at hp
  | cons g rest ih =>
    intro p hp
    unfold roundPrimes at hp
    rw [List.mem_append] at hp
    rcases hp with hp | hp
    · exact ⟨g, List.mem_cons_self _ _, List.mem_of_mem_filter hp⟩
    · obtain ⟨g', hg', hpg⟩ := ih hp
      exact ⟨g', List.mem_cons_of_mem _ hg', hpg⟩

theorem mem_nextGroups {q : List Implicant} {gs : List (List Implicant)}
    (hq : q ∈ nextGroups gs) : ∃ g ∈ gs, ∃ g' ∈ gs, q = combinePair g g' := by
  unfold nextGroups at hq
  rw [List.mem_map] at hq
  obtain ⟨⟨x, y⟩, hxy, hq⟩ := hq
  have hx := List.of_mem_zip hxy
  exact ⟨x, hx.1, y, List.mem_of_mem_tail hx.2, hq.symm⟩

/-- One round of the loop preserves coverage of every term not excluded by
the don't-care filter: a covered term stays covered either by a collected
prime implicant or inside the next round's groups. -/
theorem stepCover (n : Nat) (dc : Finset Nat) :
    ∀ (gs : List (List Implicant)) (prev : List Implicant) (a : Implicant) (t : Nat),
      t ∈ Implicant.coveredTerms n a → t ∉ dc → (∃ g ∈ gs, a ∈ g) →
      (∃ p ∈ roundPrimes n dc prev gs, t ∈ Implicant.coveredTerms n p) ∨
      (∃ c, t ∈ Implicant.coveredTerms n c ∧
        (c ∈ combinePair prev (gs.headD []) ∨ ∃ q ∈ nextGroups gs, c ∈ q)) := by
  intro gs
  induction gs with
  | nil =>
    intro prev a t _ _ hg
    obtain ⟨g, hg, _⟩ := hg
    exact absurd hg (List.not_mem_nil g)
  | cons g rest ih =>
    intro prev a t hcov hdc hg
    obtain ⟨g₀, hg₀, hag⟩ := hg
    rcases List.mem_cons.mp hg₀ with rfl | hg₀rest
    · -- the covering implicant sits in the head group
      rcases Bool.eq_false_or_eq_true (consumed prev (rest.headD []) a) with hcons | hcons
      · -- consumed: its combination covers the term in the next round
        unfold consumed at hcons
        rw [Bool.or_eq_true] at hcons
        rcases hcons with hprev | hnext
        · rw [List.any_eq_true] at hprev
          obtain ⟨b, hb, hba⟩ := hprev
          set c := Implicant.mk (b.value &&& a.value) (b.mask ||| (b.value ^^^ a.value)) with hc
          have hbc : Implicant.combine b a = some c :=
            Implicant.combine_eq_some_of_combinable hba
          refine Or.inr ⟨c, ?_, Or.inl ?_⟩
          · rw [Implicant.coveredTerms_combine hbc]
            exact Finset.mem_union_right _ hcov
          · show c ∈ combinePair prev ((g₀ :: rest).headD [])
            exact mem_combinePair.mpr ⟨b, hb, a, hag, hbc⟩
        · rw [List.any_eq_true] at hnext
          obtain ⟨b, hb, hab⟩ := hnext
          cases rest with
          | nil => exact absurd hb (List.not_mem_nil b)
          | cons g' r =>
            have hb' : b ∈ g' := hb
            set c := Implicant.mk (a.value &&& b.value) (a.mask ||| (a.value ^^^ b.value)) with hc
            have hac : Implicant.combine a b = some c :=
              Implicant.combine_eq_some_of_combinable hab
            refine Or.inr ⟨c, ?_, Or.inr ?_⟩
            · rw [Implicant.coveredTerms_combine hac]
              exact Finset.mem_union_left _ hcov
            · refine ⟨combinePair g₀ g', ?_, ?_⟩
              · rw [nextGroups_cons_cons]
                exact List.mem_cons_self _ _
              · exact mem_combinePair.mpr ⟨a, hag, b, hb', hac⟩
      · -- not consumed: it is a prime implicant of this round
        left
        refine ⟨a, ?_, hcov⟩
        unfold roundPrimes
        rw [List.mem_append]
        left
        rw [List.mem_filter]
        refine ⟨hag, ?_⟩
        rw [Bool.and_eq_true, Bool.not_eq_true', Bool.not_eq_true']
        refine ⟨hcons, ?_⟩
        rw [decide_eq_false_iff_not]
        intro hsub
        exact hdc (hsub hcov)
    · -- the covering implicant sits deeper in the list: use the inductive step
      rcases ih g a t hcov hdc ⟨g₀, hg₀rest, hag⟩ with hleft | ⟨c, hcovc, hcase⟩
      · left
        obtain ⟨p, hp, hcp⟩ := hleft
        refine ⟨p, ?_, hcp⟩
        unfold roundPrimes
        rw [List.mem_append]
        exact Or.inr hp
      · cases rest with
        | nil => exact absurd hg₀rest (List.not_mem_nil g₀)
        | cons g' r =>
          rcases hcase with hc | ⟨q, hq, hcq⟩
          · refine Or.inr ⟨c, hcovc, Or.inr ⟨combinePair g g', ?_, ?_⟩⟩
            · rw [nextGroups_cons_cons]
              exact List.mem_cons_self _ _
            · exact hc
          · refine Or.inr ⟨c, hcovc, Or.inr ⟨q, ?_, hcq⟩⟩
            rw [nextGroups_cons_cons]
            exact List.mem_cons_of_mem _ hq

/-- Every term covered inside the starting groups (and not a pure
don't-care) is covered by some returned prime implicant. -/
theorem fpiLoop_covers (n : Nat) (dc : Finset Nat) :
    ∀ (fuel : Nat) (gs : List (List Implicant)) (acc res : List Implicant),
      fpiLoop n dc fuel gs acc = some res →
      ∀ t, t ∉ dc →
        ((∃ g ∈ gs, ∃ a ∈ g, t ∈ Implicant.coveredTerms n a) ∨
          (∃ p ∈ acc, t ∈ Implicant.coveredTerms n p)) →
        ∃ p ∈ res, t ∈ Implicant.coveredTerms n p := by
  intro fuel
  induction fuel with
  | zero =>
    intro gs acc res hres
    exact absurd hres (by simp [fpiLoop])
  | succ fuel ih =>
    intro gs acc res hres t hdc hcov
    cases gs with
    | nil => exact absurd hres (by simp [fpiLoop])
    | cons g rest =>
      have hres' : (if anyCombined [] (g :: rest)
          then fpiLoop n dc fuel (nextGroups (g :: rest)) (acc ++ roundPrimes n dc [] (g :: rest))
          else some (acc ++ roundPrimes n dc [] (g :: rest))) = some res := hres
      rcases Bool.eq_false_or_eq_true (anyCombined [] (g :: rest)) with hcb | hcb
      · -- combining round: recurse on the next group list
        rw [if_pos hcb] at hres'
        apply ih _ _ _ hres' t hdc
        rcases hcov with ⟨g₀, hg₀, a, hag, hcov⟩ | ⟨p, hp, hcp⟩
        · rcases stepCover n dc (g :: rest) [] a t hcov hdc ⟨g₀, hg₀, hag⟩ with
            ⟨p, hp, hcp⟩ | ⟨c, hcovc, hcase⟩
          · exact Or.inr ⟨p, List.mem_append_right _ hp, hcp⟩
          · rcases hcase with hc | ⟨q, hq, hcq⟩
            · rw [combinePair_nil_left] at hc
              exact absurd hc (List.not_mem_nil c)
            · exact Or.inl ⟨q, hq, c, hcq, hcovc⟩
        · exact Or.inr ⟨p, List.mem_append_left _ hp, hcp⟩
      · -- exit round: current primes are appended and returned
        rw [if_neg (by simp [hcb])] at hres'
        injection hres' with hres'
        subst hres'
        rcases hcov with ⟨g₀, hg₀, a, hag, hcov⟩ | ⟨p, hp, hcp⟩
        · rcases stepCover n dc (g :: rest) [] a t hcov hdc ⟨g₀, hg₀, hag⟩ with
            ⟨p, hp, hcp⟩ | ⟨c, _, hcase⟩
          · exact ⟨p, List.mem_append_right _ hp, hcp⟩
          · rcases hcase with hc | ⟨q, hq, hcq⟩
            · rw [combinePair_nil_left] at hc
              exact absurd hc (List.not_mem_nil c)
            · rw [anyCombined_false_nextGroups hcb q hq] at hcq
              exact absurd hcq (List.not_mem_nil c)
        · exact ⟨p, List.mem_append_left _ hp, hcp⟩

/-- Implicants that are well-formed and cover only admissible terms. -/
def GoodImp (n : Nat) (T : Finset Nat) (a : Implicant) : Prop :=
  Implicant.Wf n a ∧ Implicant.coveredTerms n a ⊆ T

theorem goodImp_combinePair {n : Nat} {T : Finset Nat} {g₁ g₂ : List Implicant}
    (h₁ : ∀ a ∈ g₁, GoodImp n T a) (h₂ : ∀ b ∈ g₂, GoodImp n T b) :
    ∀ c ∈ combinePair g₁ g₂, GoodImp n T c := by
  intro c hc
  obtain ⟨a, ha, b, hb, hab⟩ := mem_combinePair.mp hc
  refine ⟨Implicant.combine_wf (h₁ a ha).1 (h₂ b hb).1 hab, ?_⟩
  rw [Implicant.coveredTerms_combine hab]
  exact Finset.union_subset (h₁ a ha).2 (h₂ b hb).2

/-- The returned prime implicants are well-formed and cover only terms drawn
from the initial term set. -/
theorem fpiLoop_good (n : Nat) (dc : Finset Nat) (T : Finset Nat) :
    ∀ (fuel : Nat) (gs : List (List Implicant)) (acc res : List Implicant),
      fpiLoop n dc fuel gs acc = some res →
      (∀ g ∈ gs, ∀ a ∈ g, GoodImp n T a) →
      (∀ p ∈ acc, GoodImp n T p) →
      ∀ p ∈ res, GoodImp n T p := by
  intro fuel
  induction fuel with
  | zero =>
    intro gs acc res hres
    exact absurd hres (by simp [fpiLoop])
  | succ fuel ih =>
    intro gs acc res hres hgs hacc
    cases gs with
    | nil => exact absurd hres (by simp [fpiLoop])
    | cons g rest =>
      have hacc' : ∀ p ∈ acc ++ roundPrimes n dc [] (g :: rest), GoodImp n T p := by
        intro p hp
        rcases List.mem_append.mp hp with hp | hp
        · exact hacc p hp
        · obtain ⟨g₀, hg₀, hpg⟩ := roundPrimes_subset hp
          exact hgs g₀ hg₀ p hpg
      have hres' : (if anyCombined [] (g :: rest)
          then fpiLoop n dc fuel (nextGroups (g :: rest)) (acc ++ roundPrimes n dc [] (g :: rest))
          else some (acc ++ roundPrimes n dc [] (g :: rest))) = some res := hres
      rcases Bool.eq_false_or_eq_true (anyCombined [] (g :: rest)) with hcb | hcb
      · rw [if_pos hcb] at hres'
        apply ih _ _ _ hres' _ hacc'
        intro q hq c hcq
        obtain ⟨g₁, hg₁, g₂, hg₂, hq⟩ := mem_nextGroups hq
        subst hq
        exact goodImp_combinePair (hgs g₁ hg₁) (hgs g₂ hg₂) c hcq
      · rw [if_neg (by simp [hcb])] at hres'
        injection hres' with hres'
        subst hres'
        exact hacc'

/-- Modelled from the spec (`prime_implicant_chart.rs` is absent): the
bipartite coverage table; rows are prime implicants (deduplicated by
structural equality), columns are the care terms (§3/§4.4).  The unordered
collections of the source are kept as duplicate-free lists in a fixed
enumeration order. -/
structure Chart where
  rows : List Implicant
  cols : List Nat
deriving DecidableEq, Repr

/-- Whether an implicant's covered-term set contains a term, i.e. whether
the chart cell at (row, column) is populated (§3). -/
def covers (n : Nat) (r : Implicant) (c : Nat) : Bool :=
  decide (c ∈ Implicant.coveredTerms n r)

/-- Modelled from the spec: `new(primeImplicants, dontCares)` — columns are
the care terms only, i.e. every term covered by some prime implicant that is
not a don't-care (§4.4). -/
def Chart.new (n : Nat) (primes : List Implicant) (dontCares : Finset Nat) : Chart :=
  { rows := primes.dedup,
    cols := (List.range (2 ^ n)).filter fun t =>
      !decide (t ∈ dontCares) && primes.any fun p => covers n p t }

/-- The remaining rows covering a column. -/
def coveringRows (n : Nat) (ch : Chart) (c : Nat) : List Implicant :=
  ch.rows.filter fun r => covers n r c

/-- The remaining columns covered by a row. -/
def rowCols (n : Nat) (ch : Chart) (r : Implicant) : List Nat :=
  ch.cols.filter fun c => covers n r c

/-- Modelled from the spec: essential extraction — a column covered by
exactly one remaining row makes that row essential; the row and every
column it covers are removed (§4.4 rule 1).  One extraction per step; the
first qualifying column in enumeration order is used. -/
def essentialStep (n : Nat) (ch : Chart) : Option (Implicant × Chart) :=
  match ch.cols.find? (fun c => (coveringRows n ch c).length == 1) with
  | none => none
  | some c =>
    match (coveringRows n ch c).head? with
    | none => none
    | some r =>
      some (r, { rows := ch.rows.erase r, cols := ch.cols.filter fun c' => !covers n r c' })

/-- Modelled from the spec: the rows whose covered-column set is contained
in another remaining row's covered-column set (§4.4 rule 2). -/
def dominatedRows (n : Nat) (ch : Chart) : List Implicant :=
  ch.rows.filter fun r =>
    ch.rows.any fun r' => r' != r && (rowCols n ch r).all fun c => covers n r' c

/-- Modelled from the spec: the columns whose covering-row set contains
another remaining column's covering-row set (§4.4 rule 2). -/
def dominatedCols (n : Nat) (ch : Chart) : List Nat :=
  ch.cols.filter fun c =>
    ch.cols.any fun c' => c' != c && (coveringRows n ch c').all fun r => covers n r c

/-- Modelled from the spec: one dominance-reduction step — remove one
dominated row, or else one dominated column (§4.4 rule 2).  The source
iterates unordered sets, so which of several tied candidates is removed is
not specified (§9); the choice is modelled by `ord`, which selects the
first or the last candidate in enumeration order. -/
def domStep (n : Nat) (ord : Bool) (ch : Chart) : Option Chart :=
  match (if ord then (dominatedRows n ch).head? else (dominatedRows n ch).getLast?) with
  | some r => some { rows := ch.rows.erase r, cols := ch.cols }
  | none =>
    match (if ord then (dominatedCols n ch).head? else (dominatedCols n ch).getLast?) with
    | some c => some { rows := ch.rows, cols := ch.cols.erase c }
    | none => none

/-- Modelled from the spec: `simplify(findAllSolutions)` — the iterative
fixpoint of essential extraction and (unless all solutions are requested)
dominance reduction, re-run until neither changes the chart (§4.4).
Structured as steps over an explicit fuel that always suffices. -/
def simplifyLoop (n : Nat) (findAll ord : Bool) :
    Nat → Chart → List Implicant → List Implicant × Chart
  | 0, ch, ess => (ess, ch)
  | fuel + 1, ch, ess =>
    match essentialStep n ch with
    | some (r, ch') => simplifyLoop n findAll ord fuel ch' (ess ++ [r])
    | none =>
      if findAll then (ess, ch)
      else
        match domStep n ord ch with
        | some ch' => simplifyLoop n findAll ord fuel ch' ess
        | none => (ess, ch)

/-- Modelled from the spec: chart simplification, returning the accumulated
essential implicants and the residual chart (§4.4). -/
def Chart.simplify (n : Nat) (findAll ord : Bool) (ch : Chart) : List Implicant × Chart :=
  simplifyLoop n findAll ord (ch.rows.length + ch.cols.length) ch []

theorem mem_coveringRows {n : Nat} {ch : Chart} {c : Nat} {r : Implicant} :
    r ∈ coveringRows n ch c ↔ r ∈ ch.rows ∧ covers n r c = true := by
  unfold coveringRows
  rw [List.mem_filter]

theorem essentialStep_spec {n : Nat} {ch : Chart} {r : Implicant} {ch' : Chart}
    (h : essentialStep n ch = some (r, ch')) :
    ∃ c ∈ ch.cols, coveringRows n ch c = [r] ∧
      ch' = { rows := ch.rows.erase r, cols := ch.cols.filter fun c' => !covers n r c' } := by
  unfold essentialStep at h
  split at h
  · exact absurd h (by simp)
  · rename_i c hfind
    split at h
    · exact absurd h (by simp)
    · rename_i r₀ hhead
      have hlen : (coveringRows n ch c).length = 1 := by
        have := List.find?_some hfind
        simpa using this
      obtain ⟨a, ha⟩ := List.length_eq_one.mp hlen
      rw [ha] at hhead
      simp only [List.head?_cons, Option.some.injEq] at hhead
      subst hhead
      simp only [Option.some.injEq, Prod.mk.injEq] at h
      obtain ⟨h1, h2⟩ := h
      subst h1
      subst h2
      exact ⟨c, List.mem_of_find?_eq_some hfind, ha, rfl⟩

theorem mem_dominatedCols {n : Nat} {ch : Chart} {c : Nat} :
    c ∈ dominatedCols n ch ↔ c ∈ ch.cols ∧
      ∃ c' ∈ ch.cols, c' ≠ c ∧ ∀ r ∈ coveringRows n ch c', covers n r c = true := by
  unfold dominatedCols
  rw [List.mem_filter]
  refine and_congr_right fun _ => ?_
  rw [List.any_eq_true]
  constructor
  · rintro ⟨c', hc', hpred⟩
    rw [Bool.and_eq_true, bne_iff_ne, List.all_eq_true] at hpred
    exact ⟨c', hc', hpred.1, hpred.2⟩
  · rintro ⟨c', hc', hne, hall⟩
    refine ⟨c', hc', ?_⟩
    rw [Bool.and_eq_true, bne_iff_ne, List.all_eq_true]
    exact ⟨hne, hall⟩

theorem domStep_spec {n : Nat} {ord : Bool} {ch ch' : Chart} (h : domStep n ord ch = some ch') :
    (∃ r ∈ ch.rows, ch' = { rows := ch.rows.erase r, cols := ch.cols }) ∨
    (∃ c ∈ dominatedCols n ch, ch' = { rows := ch.rows, cols := ch.cols.erase c }) := by
  unfold domStep at h
  cases hr : (if ord then (dominatedRows n ch).head? else (dominatedRows n ch).getLast?) with
  | some r =>
    rw [hr] at h
    injection h with h
    left
    refine ⟨r, ?_, h.symm⟩
    have hrmem : r ∈ dominatedRows n ch := by
      rcases Bool.eq_false_or_eq_true ord with hord | hord <;> rw [hord] at hr
      · obtain ⟨ys, hys⟩ := List.head?_eq_some_iff.mp hr
        rw [hys]; exact List.mem_cons_self _ _
      · exact List.mem_of_getLast?_eq_some hr
    exact List.mem_of_mem_filter hrmem
  | none =>
    rw [hr] at h
    cases hc : (if ord then (dominatedCols n ch).head? else (dominatedCols n ch).getLast?) with
    | some c =>
      rw [hc] at h
      injection h with h
      right
      refine ⟨c, ?_, h.symm⟩
      rcases Bool.eq_false_or_eq_true ord with hord | hord <;> rw [hord] at hc
      · obtain ⟨ys, hys⟩ := List.head?_eq_some_iff.mp hc
        rw [hys]; exact List.mem_cons_self _ _
      · exact List.mem_of_getLast?_eq_some hc
    | none => rw [hc] at h; exact absurd h (by simp)

theorem simplifyLoop_append (n : Nat) (fa ord : Bool) :
    ∀ (fuel : Nat) (ch : Chart) (ess : List Implicant),
      simplifyLoop n fa ord fuel ch ess =
        (ess ++ (simplifyLoop n fa ord fuel ch []).1, (simplifyLoop n fa ord fuel ch []).2) := by
  intro fuel
  induction fuel with
  | zero => intro ch ess; simp [simplifyLoop]
  | succ fuel ih =>
    intro ch ess
    cases hes : essentialStep n ch with
    | some rc =>
      obtain ⟨r, ch₁⟩ := rc
      simp only [simplifyLoop, hes]
      rw [ih ch₁ (ess ++ [r]), ih ch₁ ([] ++ [r])]
      simp
    | none =>
      rcases Bool.eq_false_or_eq_true fa with hfa | hfa
      · subst hfa
        simp [simplifyLoop, hes]
      · subst hfa
        cases hd : domStep n ord ch with
        | some ch₁ =>
          simp only [simplifyLoop, hes, hd]
          rw [ih ch₁ ess]
          simp
        | none =>
          simp [simplifyLoop, hes, hd]

/-- Master invariant of chart simplification: the residual chart only
shrinks, the extracted essential implicants are distinct removed rows that
do not touch the residual columns, every solution of the residual chart
extends to a covering of all original columns, and each essential implicant
has a witness column no other surviving row covers. -/
theorem simplifyLoop_master (n : Nat) (fa ord : Bool) :
    ∀ (fuel : Nat) (ch : Chart), ch.rows.Nodup →
      ∀ E chF, simplifyLoop n fa ord fuel ch [] = (E, chF) →
        chF.rows ⊆ ch.rows ∧
        chF.cols ⊆ ch.cols ∧
        chF.rows.Nodup ∧
        (∀ e ∈ E, e ∈ ch.rows ∧ e ∉ chF.rows) ∧
        E.Nodup ∧
        (∀ e ∈ E, ∀ c ∈ chF.cols, covers n e c = false) ∧
        (∀ S : List Implicant, (∀ r ∈ S, r ∈ chF.rows) →
          (∀ c ∈ chF.cols, ∃ r ∈ S, covers n r c = true) →
          ∀ c ∈ ch.cols, ∃ r', (r' ∈ E ∨ r' ∈ S) ∧ covers n r' c = true) ∧
        (∀ E₁ e E₂, E = E₁ ++ e :: E₂ →
          ∃ c, c ∈ ch.cols ∧ covers n e c = true ∧
            (∀ e' ∈ E₁, covers n e' c = false) ∧
            (∀ e' ∈ E₂, covers n e' c = false) ∧
            (∀ r ∈ chF.rows, covers n r c = false)) := by
  intro fuel
  induction fuel with
  | zero =>
    intro ch hnd E chF h
    simp only [simplifyLoop, Prod.mk.injEq] at h
    obtain ⟨rfl, rfl⟩ := h
    refine ⟨fun x hx => hx, fun x hx => hx, hnd, by simp, List.nodup_nil, by simp, ?_, ?_⟩
    · intro S _ hcov c hc
      obtain ⟨r, hr, hcr⟩ := hcov c hc
      exact ⟨r, Or.inr hr, hcr⟩
    · intro E₁ e E₂ hdec
      exact absurd hdec (by simp)
  | succ fuel ih =>
    intro ch hnd E chF h
    cases hes : essentialStep n ch with
    | some rc =>
      obtain ⟨r, ch₁⟩ := rc
      obtain ⟨c₀, hc₀mem, hc₀cov, hch₁⟩ := essentialStep_spec hes
      have hrmem : r ∈ ch.rows := by
        have : r ∈ coveringRows n ch c₀ := by rw [hc₀cov]; exact List.mem_cons_self _ _
        exact (mem_coveringRows.mp this).1
      have hrcov : covers n r c₀ = true := by
        have : r ∈ coveringRows n ch c₀ := by rw [hc₀cov]; exact List.mem_cons_self _ _
        exact (mem_coveringRows.mp this).2
      have huniq : ∀ r', r' ∈ ch.rows → covers n r' c₀ = true → r' = r := by
        intro r' hmem hcov
        have : r' ∈ coveringRows n ch c₀ := mem_coveringRows.mpr ⟨hmem, hcov⟩
        rw [hc₀cov] at this
        simpa using this
      subst hch₁
      have hnd₁ : (ch.rows.erase r).Nodup := hnd.erase r
      have hrnot₁ : r ∉ ch.rows.erase r := hnd.not_mem_erase
      have hrows₁sub : ch.rows.erase r ⊆ ch.rows := List.erase_subset r ch.rows
      have hcols₁sub : (ch.cols.filter fun c' => !covers n r c') ⊆ ch.cols :=
        fun x hx => List.mem_of_mem_filter hx
      have hcols₁r : ∀ c ∈ (ch.cols.filter fun c' => !covers n r c'), covers n r c = false := by
        intro c hc
        have := (List.mem_filter.mp hc).2
        rwa [Bool.not_eq_true'] at this
      simp only [simplifyLoop, hes] at h
      rw [simplifyLoop_append n fa ord fuel] at h
      rcases hloop : simplifyLoop n fa ord fuel
        { rows := ch.rows.erase r, cols := ch.cols.filter fun c' => !covers n r c' } [] with
        ⟨E', chF₁⟩
      rw [hloop] at h
      simp only [Prod.mk.injEq, List.nil_append] at h
      obtain ⟨hE, hchF⟩ := h
      subst hE
      subst hchF
      obtain ⟨ih1, ih2, ih3, ih4, ih5, ih6, ih7, ih8⟩ := ih
        { rows := ch.rows.erase r, cols := ch.cols.filter fun c' => !covers n r c' }
        hnd₁ E' _ hloop
      refine ⟨fun x hx => hrows₁sub (ih1 hx), fun x hx => hcols₁sub (ih2 hx), ih3, ?_, ?_, ?_, ?_, ?_⟩
      · intro e he
        rcases List.mem_cons.mp he with rfl | he'
        · exact ⟨hrmem, fun hin => hrnot₁ (ih1 hin)⟩
        · exact ⟨hrows₁sub (ih4 e he').1, (ih4 e he').2⟩
      · refine List.nodup_cons.mpr ⟨?_, ih5⟩
        intro hin
        exact hrnot₁ (ih4 r hin).1
      · intro e he c hc
        rcases List.mem_cons.mp he with rfl | he'
        · exact hcols₁r c (ih2 hc)
        · exact ih6 e he' c hc
      · intro S hS hcov c hc
        rcases Bool.eq_false_or_eq_true (covers n r c) with hcrc | hcrc
        · exact ⟨r, Or.inl (List.mem_cons_self _ _), hcrc⟩
        · have hc₁ : c ∈ ch.cols.filter fun c' => !covers n r c' :=
            List.mem_filter.mpr ⟨hc, by rw [Bool.not_eq_true', hcrc]⟩
          obtain ⟨r', hr'or, hr'cov⟩ := ih7 S hS hcov c hc₁
          rcases hr'or with hr' | hr'
          · exact ⟨r', Or.inl (List.mem_cons_of_mem _ hr'), hr'cov⟩
          · exact ⟨r', Or.inr hr', hr'cov⟩
      · intro E₁ e E₂ hdec
        cases E₁ with
        | nil =>
          simp only [List.nil_append, List.cons.injEq] at hdec
          obtain ⟨rfl, rfl⟩ := hdec
          refine ⟨c₀, hc₀mem, hrcov, by simp, ?_, ?_⟩
          · intro e' he'
            have he'₁ := (ih4 e' he').1
            rcases Bool.eq_false_or_eq_true (covers n e' c₀) with hcc | hcc
            · exfalso
              have := huniq e' (hrows₁sub he'₁) hcc
              subst this
              exact hrnot₁ he'₁
            · exact hcc
          · intro r'' hr''
            have hr''₁ := ih1 hr''
            rcases Bool.eq_false_or_eq_true (covers n r'' c₀) with hcc | hcc
            · exfalso
              have := huniq r'' (hrows₁sub hr''₁) hcc
              subst this
              exact hrnot₁ hr''₁
            · exact hcc
        | cons x E₁' =>
          simp only [List.cons_append, List.cons.injEq] at hdec
          obtain ⟨rfl, hdec⟩ := hdec
          obtain ⟨c, hc₁, hcove, hE₁', hE₂, hchFr⟩ := ih8 E₁' e E₂ hdec
          refine ⟨c, hcols₁sub hc₁, hcove, ?_, hE₂, hchFr⟩
          intro e' he'
          rcases List.mem_cons.mp he' with rfl | he''
          · exact hcols₁r c hc₁
          · exact hE₁' e' he''
    | none =>
      rcases Bool.eq_false_or_eq_true fa with hfa | hfa
      · subst hfa
        simp only [simplifyLoop, hes, if_pos, Prod.mk.injEq] at h
        obtain ⟨rfl, rfl⟩ := h
        refine ⟨fun x hx => hx, fun x hx => hx, hnd, by simp, List.nodup_nil, by simp, ?_, ?_⟩
        · intro S _ hcov c hc
          obtain ⟨r, hr, hcr⟩ := hcov c hc
          exact ⟨r, Or.inr hr, hcr⟩
        · intro E₁ e E₂ hdec
          exact absurd hdec (by simp)
      · subst hfa
        cases hd : domStep n ord ch with
        | none =>
          simp only [simplifyLoop, hes, hd, Prod.mk.injEq] at h
          simp only [Bool.false_eq_true, if_false] at h
          obtain ⟨rfl, rfl⟩ := h
          refine ⟨fun x hx => hx, fun x hx => hx, hnd, by simp, List.nodup_nil, by simp, ?_, ?_⟩
          · intro S _ hcov c hc
            obtain ⟨r, hr, hcr⟩ := hcov c hc
            exact ⟨r, Or.inr hr, hcr⟩
          · intro E₁ e E₂ hdec
            exact absurd hdec (by simp)
        | some ch₁ =>
          simp only [simplifyLoop, hes, hd, Bool.false_eq_true, if_false] at h
          rcases domStep_spec hd with ⟨rd, _, hch₁⟩ | ⟨cd, hcdmem, hch₁⟩
          · -- a dominated row was removed
            subst hch₁
            obtain ⟨ih1, ih2, ih3, ih4, ih5, ih6, ih7, ih8⟩ :=
              ih { rows := ch.rows.erase rd, cols := ch.cols } (hnd.erase rd) E chF h
            have hsub : ch.rows.erase rd ⊆ ch.rows := List.erase_subset rd ch.rows
            exact ⟨fun x hx => hsub (ih1 hx), ih2, ih3,
              fun e he => ⟨hsub (ih4 e he).1, (ih4 e he).2⟩, ih5, ih6, ih7, ih8⟩
          · -- a dominated column was removed
            subst hch₁
            obtain ⟨hcdcols, c', hc'mem, hc'ne, hall⟩ := mem_dominatedCols.mp hcdmem
            obtain ⟨ih1, ih2, ih3, ih4, ih5, ih6, ih7, ih8⟩ :=
              ih { rows := ch.rows, cols := ch.cols.erase cd } hnd E chF h
            have hsub : ch.cols.erase cd ⊆ ch.cols := List.erase_subset cd ch.cols
            refine ⟨ih1, fun x hx => hsub (ih2 hx), ih3, ih4, ih5, ih6, ?_, ?_⟩
            · intro S hS hcov c hc
              rcases Decidable.em (c = cd) with rfl | hccd
              · have hc'₁ : c' ∈ ch.cols.erase c := (List.mem_erase_of_ne hc'ne).mpr hc'mem
                obtain ⟨r₀, hr₀or, hr₀cov⟩ := ih7 S hS hcov c' hc'₁
                have hr₀rows : r₀ ∈ ch.rows := by
                  rcases hr₀or with hr₀ | hr₀
                  · exact (ih4 r₀ hr₀).1
                  · exact ih1 (hS r₀ hr₀)
                have hr₀covrow : r₀ ∈ coveringRows n ch c' :=
                  mem_coveringRows.mpr ⟨hr₀rows, hr₀cov⟩
                exact ⟨r₀, hr₀or, hall r₀ hr₀covrow⟩
              · have hcin : c ∈ ch.cols.erase cd := (List.mem_erase_of_ne hccd).mpr hc
                exact ih7 S hS hcov c hcin
            · intro E₁ e E₂ hdec
              obtain ⟨c, hc₁, hcove, hE₁, hE₂, hchFr⟩ := ih8 E₁ e E₂ hdec
              exact ⟨c, hsub hc₁, hcove, hE₁, hE₂, hchFr⟩

/-- A linear key used to keep row sets in a canonical order. -/
def Implicant.keyLe (a b : Implicant) : Bool :=
  decide (a.value < b.value) || (a.value == b.value && decide (a.mask ≤ b.mask))

/-- Sorted insertion used to keep a product term canonical. -/
def insertSorted (r : Implicant) : List Implicant → List Implicant
  | [] => [r]
  | x :: xs => if Implicant.keyLe r x then r :: x :: xs else x :: insertSorted r xs

/-- Modelled from the spec: adding a row to a product term — product terms
are sets of rows, kept as canonically ordered duplicate-free lists (§4.5). -/
def insertRow (r : Implicant) (p : List Implicant) : List Implicant :=
  if r ∈ p then p else insertSorted r p

theorem mem_insertSorted {y r : Implicant} :
    ∀ {p : List Implicant}, y ∈ insertSorted r p ↔ y = r ∨ y ∈ p := by
  intro p
  induction p with
  | nil => simp [insertSorted]
  | cons x xs ihp =>
    unfold insertSorted
    rcases Bool.eq_false_or_eq_true (Implicant.keyLe r x) with hle | hle
    · rw [if_pos hle]
      simp [or_comm, or_assoc, or_left_comm]
    · rw [if_neg (by simp [hle])]
      simp only [List.mem_cons, ihp]
      tauto

theorem mem_insertRow {y r : Implicant} {p : List Implicant} :
    y ∈ insertRow r p ↔ y = r ∨ y ∈ p := by
  unfold insertRow
  rcases Decidable.em (r ∈ p) with hin | hin
  · rw [if_pos hin]
    constructor
    · exact Or.inr
    · rintro (rfl | hy)
      · exact hin
      · exact hy
  · rw [if_neg hin]
    exact mem_insertSorted

theorem nodup_insertSorted {r : Implicant} :
    ∀ {p : List Implicant}, p.Nodup → r ∉ p → (insertSorted r p).Nodup := by
  intro p
  induction p with
  | nil => intro _ _; simp [insertSorted]
  | cons x xs ihp =>
    intro hnd hrp
    unfold insertSorted
    rcases Bool.eq_false_or_eq_true (Implicant.keyLe r x) with hle | hle
    · rw [if_pos hle]
      exact List.nodup_cons.mpr ⟨hrp, hnd⟩
    · rw [if_neg (by simp [hle])]
      obtain ⟨hx, hxs⟩ := List.nodup_cons.mp hnd
      refine List.nodup_cons.mpr ⟨?_, ihp hxs fun hr => hrp (List.mem_cons_of_mem _ hr)⟩
      intro hxin
      rcases mem_insertSorted.mp hxin with rfl | hxin
      · exact hrp (List.mem_cons_self _ _)
      · exact hx hxin

theorem nodup_insertRow {r : Implicant} {p : List Implicant} (h : p.Nodup) :
    (insertRow r p).Nodup := by
  unfold insertRow
  rcases Decidable.em (r ∈ p) with hin | hin
  · rwa [if_pos hin]
  · rw [if_neg hin]
    exact nodup_insertSorted h hin

theorem subset_insertRow (r : Implicant) (p : List Implicant) : p ⊆ insertRow r p :=
  fun _ hy => mem_insertRow.mpr (Or.inr hy)

theorem self_mem_insertRow (r : Implicant) (p : List Implicant) : r ∈ insertRow r p :=
  mem_insertRow.mpr (Or.inl rfl)

/-- Modelled from the spec: the absorption law — after each multiplication
step, discard any product term that is a strict superset of another product
term's row set (§4.5); structurally identical duplicates are merged. -/
def absorb (ts : List (List Implicant)) : List (List Implicant) :=
  ts.dedup.filter fun t => !ts.any fun t' => decide (t' ⊆ t) && decide (t'.length < t.length)

theorem absorb_subset {ts : List (List Implicant)} : ∀ t ∈ absorb ts, t ∈ ts := by
  intro t ht
  exact List.mem_dedup.mp (List.mem_of_mem_filter ht)

theorem absorb_exists_subset (ts : List (List Implicant)) :
    ∀ t ∈ ts, ∃ u ∈ absorb ts, u ⊆ t := by
  have key : ∀ (k : Nat) (t : List Implicant), t.length ≤ k → t ∈ ts →
      ∃ u ∈ absorb ts, u ⊆ t := by
    intro k
    induction k with
    | zero =>
      intro t hlen ht
      have ht0 : t = [] := List.eq_nil_of_length_eq_zero (Nat.le_zero.mp hlen)
      subst ht0
      refine ⟨[], ?_, fun y hy => hy⟩
      unfold absorb
      rw [List.mem_filter]
      refine ⟨List.mem_dedup.mpr ht, ?_⟩
      rw [Bool.not_eq_true', List.any_eq_false]
      intro t' _
      simp
    | succ k ihk =>
      intro t hlen ht
      rcases Decidable.em (t ∈ absorb ts) with habs | habs
      · exact ⟨t, habs, fun y hy => hy⟩
      · have hstep : ∃ t' ∈ ts, t' ⊆ t ∧ t'.length < t.length := by
          unfold absorb at habs
          rw [List.mem_filter, not_and] at habs
          have := habs (List.mem_dedup.mpr ht)
          rw [Bool.not_eq_true, Bool.not_eq_false', List.any_eq_true] at this
          obtain ⟨t', ht', hp⟩ := this
          rw [Bool.and_eq_true, decide_eq_true_eq, decide_eq_true_eq] at hp
          exact ⟨t', ht', hp.1, hp.2⟩
        obtain ⟨t', ht', hsub, hlt⟩ := hstep
        obtain ⟨u, hu, husub⟩ := ihk t' (by omega) ht'
        exact ⟨u, hu, husub.trans hsub⟩
  intro t ht
  exact key t.length t (Nat.le_refl _) ht

/-- Modelled from the spec: one multiplication step of the
product-of-sums expansion, followed by absorption (§4.5). -/
def prodStep (prods : List (List Implicant)) (rows : List Implicant) :
    List (List Implicant) :=
  absorb (prods.flatMap fun p => rows.map fun r => insertRow r p)

/-- The column-by-column expansion of the covering product (§4.5). -/
def petrickFold (n : Nat) (ch : Chart) (cs : List Nat) (acc : List (List Implicant)) :
    List (List Implicant) :=
  cs.foldl (fun a c => prodStep a (coveringRows n ch c)) acc

/-- Modelled from the spec: all candidate coverings of the residual chart,
one product term per covering (§4.5). -/
def petrickProducts (n : Nat) (ch : Chart) : List (List Implicant) :=
  petrickFold n ch ch.cols [[]]

/-- Modelled from the spec: the literal cost of a row — its number of
non-eliminated positions (§4.5). -/
def literalCost (n : Nat) (r : Implicant) : Nat := n - popcount r.mask

/-- Total literal cost of a candidate covering (§4.5). -/
def solutionCost (n : Nat) (p : List Implicant) : Nat := (p.map (literalCost n)).sum

/-- Modelled from the spec (`petrick.rs` is absent): Petrick's method —
expand the covering requirement into a sum of products with absorption,
then keep every covering with the fewest rows, breaking remaining ties by
minimum total literal cost (§4.5). -/
def Petrick.solve (n : Nat) (ch : Chart) : List (List Implicant) :=
  let prods := petrickProducts n ch
  let minLen := (prods.map List.length).min?.getD 0
  let shortest := prods.filter fun p => p.length == minLen
  let minCost := (shortest.map (solutionCost n)).min?.getD 0
  shortest.filter fun p => solutionCost n p == minCost

theorem mem_prodStep {t : List Implicant} {prods : List (List Implicant)}
    {rows : List Implicant} (ht : t ∈ prodStep prods rows) :
    ∃ p ∈ prods, ∃ r ∈ rows, t = insertRow r p := by
  have := absorb_subset t ht
  rw [List.mem_flatMap] at this
  obtain ⟨p, hp, hmem⟩ := this
  rw [List.mem_map] at hmem
  obtain ⟨r, hr, hrt⟩ := hmem
  exact ⟨p, hp, r, hr, hrt.symm⟩

theorem prodStep_exists_subset {prods : List (List Implicant)} {rows : List Implicant}
    {T : List Implicant} {p : List Implicant} (hp : p ∈ prods) (hpT : p ⊆ T)
    {r : Implicant} (hr : r ∈ rows) (hrT : r ∈ T) :
    ∃ t ∈ prodStep prods rows, t ⊆ T := by
  have hmem : insertRow r p ∈ prods.flatMap fun q => rows.map fun s => insertRow s q := by
    rw [List.mem_flatMap]
    exact ⟨p, hp, List.mem_map.mpr ⟨r, hr, rfl⟩⟩
  obtain ⟨u, hu, husub⟩ := absorb_exists_subset _ _ hmem
  refine ⟨u, hu, fun y hy => ?_⟩
  rcases mem_insertRow.mp (husub hy) with rfl | hy'
  · exact hrT
  · exact hpT hy'

theorem coveringRows_subset_rows (n : Nat) (ch : Chart) (c : Nat) :
    coveringRows n ch c ⊆ ch.rows :=
  fun _ hx => (mem_coveringRows.mp hx).1

/-- Invariant of the Petrick expansion: every product term is a
duplicate-free subset of the chart rows extending some input term and
covering every processed column, and for every covering set of rows some
product term is contained in it. -/
theorem petrickFold_inv (n : Nat) (ch : Chart) :
    ∀ (cs : List Nat) (acc : List (List Implicant)),
      (∀ p ∈ acc, (∀ r ∈ p, r ∈ ch.rows) ∧ p.Nodup) →
      (∀ p' ∈ petrickFold n ch cs acc, (∀ r ∈ p', r ∈ ch.rows) ∧ p'.Nodup) ∧
      (∀ p' ∈ petrickFold n ch cs acc, ∃ p ∈ acc, p ⊆ p') ∧
      (∀ p' ∈ petrickFold n ch cs acc, ∀ c ∈ cs, ∃ r ∈ p', covers n r c = true) ∧
      (∀ T : List Implicant, (∀ r ∈ T, r ∈ ch.rows) →
        (∀ c ∈ cs, ∃ r ∈ T, covers n r c = true) →
        (∃ p ∈ acc, p ⊆ T) → ∃ p' ∈ petrickFold n ch cs acc, p' ⊆ T) := by
  intro cs
  induction cs with
  | nil =>
    intro acc hacc
    refine ⟨hacc, fun p' hp' => ⟨p', hp', fun y hy => hy⟩, by simp, ?_⟩
    intro T _ _ hex
    exact hex
  | cons c cs' ihcs =>
    intro acc hacc
    have hstep : ∀ p' ∈ prodStep acc (coveringRows n ch c),
        (∀ r ∈ p', r ∈ ch.rows) ∧ p'.Nodup := by
      intro p' hp'
      obtain ⟨p, hp, r, hr, rfl⟩ := mem_prodStep hp'
      constructor
      · intro y hy
        rcases mem_insertRow.mp hy with rfl | hy'
        · exact coveringRows_subset_rows n ch c hr
        · exact (hacc p hp).1 y hy'
      · exact nodup_insertRow (hacc p hp).2
    obtain ⟨ih1, ih2, ih3, ih4⟩ := ihcs (prodStep acc (coveringRows n ch c)) hstep
    have hfold : petrickFold n ch (c :: cs') acc =
        petrickFold n ch cs' (prodStep acc (coveringRows n ch c)) := rfl
    rw [hfold]
    refine ⟨ih1, ?_, ?_, ?_⟩
    · intro p' hp'
      obtain ⟨t, ht, htp'⟩ := ih2 p' hp'
      obtain ⟨p, hp, r, hr, rfl⟩ := mem_prodStep ht
      exact ⟨p, hp, (subset_insertRow r p).trans htp'⟩
    · intro p' hp' c₁ hc₁
      rcases List.mem_cons.mp hc₁ with rfl | hc₁'
      · obtain ⟨t, ht, htp'⟩ := ih2 p' hp'
        obtain ⟨p, hp, r, hr, rfl⟩ := mem_prodStep ht
        exact ⟨r, htp' (self_mem_insertRow r p), (mem_coveringRows.mp hr).2⟩
      · exact ih3 p' hp' c₁ hc₁'
    · intro T hTrows hTcov hex
      obtain ⟨p, hp, hpT⟩ := hex
      obtain ⟨r₀, hr₀T, hr₀cov⟩ := hTcov c (List.mem_cons_self _ _)
      have hr₀ : r₀ ∈ coveringRows n ch c :=
        mem_coveringRows.mpr ⟨hTrows r₀ hr₀T, hr₀cov⟩
      obtain ⟨t, ht, htT⟩ := prodStep_exists_subset hp hpT hr₀ hr₀T
      exact ih4 T hTrows (fun c₁ hc₁ => hTcov c₁ (List.mem_cons_of_mem _ hc₁)) ⟨t, ht, htT⟩

/-- Specification of the Petrick solver: every returned covering consists
of distinct chart rows, covers every residual column, and no strictly
smaller subset of it is again a covering. -/
theorem petrick_solve_spec (n : Nat) (ch : Chart) :
    ∀ S ∈ Petrick.solve n ch,
      (∀ r ∈ S, r ∈ ch.rows) ∧ S.Nodup ∧
      (∀ c ∈ ch.cols, ∃ r ∈ S, covers n r c = true) ∧
      (∀ T : List Implicant, T ⊆ S →
        (∀ c ∈ ch.cols, ∃ r ∈ T, covers n r c = true) →
        T.length < S.length → False) := by
  intro S hS
  have hshort : S ∈ (petrickProducts n ch).filter
      fun p => p.length == ((petrickProducts n ch).map List.length).min?.getD 0 :=
    List.mem_of_mem_filter hS
  have hSprod : S ∈ petrickProducts n ch := List.mem_of_mem_filter hshort
  have hSlen : S.length = ((petrickProducts n ch).map List.length).min?.getD 0 := by
    have := (List.mem_filter.mp hshort).2
    simpa using this
  obtain ⟨inv1, _, inv3, inv4⟩ :=
    petrickFold_inv n ch ch.cols [[]] (by simp)
  have hmin : ∀ p ∈ petrickProducts n ch, S.length ≤ p.length := by
    intro p hp
    have hmem : p.length ∈ (petrickProducts n ch).map List.length :=
      List.mem_map.mpr ⟨p, hp, rfl⟩
    cases hmq : ((petrickProducts n ch).map List.length).min? with
    | none =>
      rw [List.min?_eq_none_iff] at hmq
      rw [hmq] at hmem
      exact absurd hmem (List.not_mem_nil _)
    | some m =>
      have hle := (List.min?_eq_some_iff'.mp hmq).2 _ hmem
      rw [hSlen, hmq]
      simpa using hle
  refine ⟨(inv1 S hSprod).1, (inv1 S hSprod).2, inv3 S hSprod, ?_⟩
  intro T hTS hTcov hTlen
  have hTrows : ∀ r ∈ T, r ∈ ch.rows := fun r hr => (inv1 S hSprod).1 r (hTS hr)
  obtain ⟨p', hp', hp'T⟩ := inv4 T hTrows hTcov ⟨[], List.mem_singleton_self _, by simp⟩
  have hp'nd : p'.Nodup := (inv1 p' hp').2
  have hp'len : p'.length ≤ T.length := (hp'nd.subperm hp'T).length_le
  have := hmin p' hp'
  omega

/-- Modelled from the spec (`solution.rs` is absent): a terminal solution —
an ordered sequence of implicants together with the variable names and the
expression form used for rendering (§3/§6). -/
structure Solution where
  implicants : List Implicant
  vars : List String
  form : Form
deriving DecidableEq

/-- Modelled from the spec: `Solution::new` packages an internal solution
with the variable names and the form (used at src/lib.rs line 156). -/
def Solution.new (sol : List Implicant) (vars : List String) (form : Form) : Solution :=
  ⟨sol, vars, form⟩

/-- Modelled from the spec: the canonical reordering of a solution's
implicants for display (§3); a permutation that leaves covered terms
unchanged.  Polarity/literal ordering only affects rendering. -/
def variableSort (form : Form) (sol : List Implicant) : List Implicant :=
  sol.foldr insertSorted []

theorem insertSorted_perm (r : Implicant) :
    ∀ (p : List Implicant), (insertSorted r p).Perm (r :: p) := by
  intro p
  induction p with
  | nil => exact List.Perm.refl _
  | cons x xs ihp =>
    unfold insertSorted
    rcases Bool.eq_false_or_eq_true (Implicant.keyLe r x) with hle | hle
    · rw [if_pos hle]
    · rw [if_neg (by simp [hle])]
      exact (ihp.cons x).trans (List.Perm.swap r x xs)

theorem variableSort_perm (form : Form) :
    ∀ (sol : List Implicant), (variableSort form sol).Perm sol := by
  intro sol
  induction sol with
  | nil => exact List.Perm.refl _
  | cons x xs ihx =>
    show (insertSorted x (variableSort form xs)).Perm (x :: xs)
    exact (insertSorted_perm x _).trans (ihx.cons x)

/-- Union of the covered terms of a solution's implicants
(`check_solution`, src/lib.rs lines 446-447). -/
def coveredBy (n : Nat) (solution : List Implicant) : Finset Nat :=
  solution.foldr (fun i acc => Implicant.coveredTerms n i ∪ acc) ∅

theorem mem_coveredBy {n : Nat} {solution : List Implicant} {t : Nat} :
    t ∈ coveredBy n solution ↔ ∃ i ∈ solution, t ∈ Implicant.coveredTerms n i := by
  induction solution with
  | nil => simp [coveredBy]
  | cons x xs ihx =>
    unfold coveredBy at ihx ⊢
    simp only [List.foldr_cons, Finset.mem_union, ihx, List.mem_cons]
    constructor
    · rintro (h | ⟨i, hi, hti⟩)
      · exact ⟨x, Or.inl rfl, h⟩
      · exact ⟨i, Or.inr hi, hti⟩
    · rintro ⟨i, hi | hi, hti⟩
      · subst hi; exact Or.inl hti
      · exact Or.inr ⟨i, hi, hti⟩

/-- `check_solution` (src/lib.rs lines 445-451): the covered terms must
contain every required term and be contained in the required terms plus the
don't-cares. -/
def check_solution (n : Nat) (terms dontCares : Finset Nat) (solution : List Implicant) :
    Bool :=
  decide (terms ⊆ coveredBy n solution) && decide (coveredBy n solution ⊆ terms ∪ dontCares)

/-- `minimize_internal` (src/lib.rs lines 378-401): find the prime
implicants, build and simplify the chart, solve the residual covering with
Petrick's method, assemble and sort the solutions, and assert the coverage
check on each.  `none` models the panics (`assert!` failure or the loop
panic), both proved unreachable on validated input.  `ord` models the
unordered-set iteration choice inside dominance reduction (spec §9). -/
def minimize_internal (n : Nat) (terms dontCares : Finset Nat) (form : Form)
    (find_all_solutions : Bool) (ord : Bool) : Option (List (List Implicant)) :=
  match find_prime_implicants n terms dontCares form with
  | none => none
  | some prime_implicants =>
    match (Chart.new n prime_implicants dontCares).simplify n find_all_solutions ord with
    | (essential_prime_implicants, residual) =>
      if (((Petrick.solve n residual).map fun s => essential_prime_implicants ++ s).map
            (variableSort form)).all
          (fun s => check_solution n terms dontCares s) then
        some (((Petrick.solve n residual).map fun s => essential_prime_implicants ++ s).map
          (variableSort form))
      else none

/-- `get_dont_cares` (src/lib.rs lines 434-443): the complement of the
cares in the full term range. -/
def get_dont_cares (variable_count : Nat) (minterms maxterms : Finset Nat) : Finset Nat :=
  Finset.range (2 ^ variable_count) \ (minterms ∪ maxterms)

/-- `Error` (src/lib.rs lines 311-335); `Timeout` belongs to the dropped
deadline wrapper. -/
inductive Error where
  /-- The number of variables was less than 1 or greater than 26. -/
  | InvalidVariableCount : Nat → Error
  /-- A variable was 0, 1, empty or had leading/trailing whitespace. -/
  | InvalidVariable : Error
  /-- There were duplicate variables (carrying the offending names). -/
  | DuplicateVariables : Finset String → Error
  /-- Terms out of bounds for the variable count (carrying both). -/
  | TermOutOfBounds : Finset Nat → Nat → Error
  /-- Conflicting terms between the two given term sets. -/
  | TermConflict : Finset Nat → Error
  /-- The deadline elapsed before the computation finished. -/
  | Timeout : Error
deriving DecidableEq

instance {ε α : Type} [DecidableEq ε] [DecidableEq α] : DecidableEq (Except ε α) :=
  fun a b =>
    match a, b with
    | .ok x, .ok y =>
      if h : x = y then .isTrue (by rw [h]) else .isFalse fun hc => h (by injection hc)
    | .error x, .error y =>
      if h : x = y then .isTrue (by rw [h]) else .isFalse fun hc => h (by injection hc)
    | .ok _, .error _ => .isFalse fun hc => Except.noConfusion hc
    | .error _, .ok _ => .isFalse fun hc => Except.noConfusion hc

/-- Leading-whitespace removal on a character list. -/
def dropLeadingWs : List Char → List Char
  | [] => []
  | c :: cs => if c = ' ' || c = '\t' || c = '\n' || c = '\r' then dropLeadingWs cs else c :: cs

/-- The whitespace-trimming used by the variable-name check
(`variable.trim()` in src/lib.rs line 470): remove leading and trailing
whitespace characters. -/
def strTrim (s : String) : String :=
  String.mk ((dropLeadingWs (dropLeadingWs s.data).reverse).reverse)

/-- `validate_input` (src/lib.rs lines 460-510): the checks run in a fixed
order — variable count, variable names, duplicate variables, terms out of
bounds, conflicting terms — and the first failing check produces the
error. -/
def validate_input (vars : List String) (terms1 terms2 : Finset Nat) :
    Except Error Unit :=
  if vars.isEmpty || decide (vars.length > 26) then
    .error (.InvalidVariableCount vars.length)
  else if vars.any fun v => v == "0" || v == "1" || v.isEmpty || v != strTrim v then
    .error .InvalidVariable
  else if (vars.filter fun v => decide (2 ≤ vars.count v)).toFinset ≠ ∅ then
    .error (.DuplicateVariables (vars.filter fun v => decide (2 ≤ vars.count v)).toFinset)
  else if ((terms1 ∪ terms2).filter fun t => 2 ^ vars.length ≤ t) ≠ ∅ then
    .error (.TermOutOfBounds ((terms1 ∪ terms2).filter fun t => 2 ^ vars.length ≤ t)
      vars.length)
  else if terms1 ∩ terms2 ≠ ∅ then
    .error (.TermConflict (terms1 ∩ terms2))
  else .ok ()

/-- `minimize` (src/lib.rs lines 126-158) with `ord` exposed: validate,
infer the don't-cares, pick the care terms by form, minimize and wrap each
internal solution.  The deadline wrapper is outside this embedding. -/
def minimizeWithOrd (vars : List String) (minterms maxterms : List Nat)
    (form : Form) (find_all_solutions : Bool) (ord : Bool) :
    Option (Except Error (List Solution)) :=
  match validate_input vars minterms.toFinset maxterms.toFinset with
  | .error e => some (.error e)
  | .ok () =>
    match minimize_internal vars.length
        (if form = SOP then minterms.toFinset else maxterms.toFinset)
        (get_dont_cares vars.length minterms.toFinset maxterms.toFinset)
        form find_all_solutions ord with
    | none => none
    | some internal_solutions =>
      some (.ok (internal_solutions.map fun s => Solution.new s vars form))

/-- `minimize` (src/lib.rs lines 126-158) with no deadline supplied; the
unordered-set iteration choice is fixed to the default enumeration order. -/
def minimize (vars : List String) (minterms maxterms : List Nat)
    (form : Form) (find_all_solutions : Bool) : Option (Except Error (List Solution)) :=
  minimizeWithOrd vars minterms maxterms form find_all_solutions true

/-- `minimize_minterms` (src/lib.rs lines 197-225) with no deadline
supplied: validates minterms against the explicit don't-cares and always
uses sum-of-products form. -/
def minimize_minterms (vars : List String) (minterms dont_cares : List Nat)
    (find_all_solutions : Bool) : Option (Except Error (List Solution)) :=
  match validate_input vars minterms.toFinset dont_cares.toFinset with
  | .error e => some (.error e)
  | .ok () =>
    match minimize_internal vars.length minterms.toFinset dont_cares.toFinset SOP
        find_all_solutions true with
    | none => none
    | some internal_solutions =>
      some (.ok (internal_solutions.map fun s => Solution.new s vars SOP))

/-- `minimize_maxterms` (src/lib.rs lines 264-292) with no deadline
supplied: validates maxterms against the explicit don't-cares and always
uses product-of-sums form. -/
def minimize_maxterms (vars : List String) (maxterms dont_cares : List Nat)
    (find_all_solutions : Bool) : Option (Except Error (List Solution)) :=
  match validate_input vars maxterms.toFinset dont_cares.toFinset with
  | .error e => some (.error e)
  | .ok () =>
    match minimize_internal vars.length maxterms.toFinset dont_cares.toFinset POS
        find_all_solutions true with
    | none => none
    | some internal_solutions =>
      some (.ok (internal_solutions.map fun s => Solution.new s vars POS))

theorem popcount_le_of_lt_two_pow : ∀ (n t : Nat), t < 2 ^ n → popcount t ≤ n := by
  intro n
  induction n with
  | zero =>
    intro t ht
    have : t = 0 := by simpa using ht
    subst this
    exact Nat.le_refl _
  | succ n ihn =>
    intro t ht
    cases t with
    | zero => exact Nat.zero_le _
    | succ m =>
      rw [popcount_succ m]
      have h2 : 2 ^ (n + 1) = 2 * 2 ^ n := by rw [Nat.pow_succ]; ring
      have hhalf : (m + 1) / 2 < 2 ^ n := by omega
      have := ihn _ hhalf
      omega

theorem mem_groupTerms_self {n : Nat} {l : List Nat} {t : Nat} (ht : t ∈ l)
    (hlt : t < 2 ^ n) : ∃ g ∈ groupTerms n l, Implicant.fromTerm t ∈ g := by
  refine ⟨(l.filter fun u => popcount u == popcount t).map Implicant.fromTerm, ?_, ?_⟩
  · unfold groupTerms
    rw [List.mem_map]
    exact ⟨popcount t, List.mem_range.mpr
      (Nat.lt_succ_of_le (popcount_le_of_lt_two_pow n t hlt)), rfl⟩
  · rw [List.mem_map]
    exact ⟨t, List.mem_filter.mpr ⟨ht, by simp⟩, rfl⟩

theorem groupTerms_forall {n : Nat} {l : List Nat} :
    ∀ g ∈ groupTerms n l, ∀ a ∈ g, ∃ t ∈ l, a = Implicant.fromTerm t := by
  intro g hg a ha
  unfold groupTerms at hg
  rw [List.mem_map] at hg
  obtain ⟨i, _, hgi⟩ := hg
  subst hgi
  rw [List.mem_map] at ha
  obtain ⟨t, htf, hta⟩ := ha
  exact ⟨t, List.mem_of_mem_filter htf, hta.symm⟩

/-- `find_prime_implicants` always terminates through the loop's fixpoint
condition. -/
theorem find_prime_implicants_isSome (n : Nat) (terms dc : Finset Nat) (form : Form) :
    (find_prime_implicants n terms dc form).isSome := by
  unfold find_prime_implicants
  apply fpiLoop_isSome
  · have : (groupTerms n ((List.range (2 ^ n)).filter fun t =>
        decide (t ∈ terms ∪ dc))).length = n + 1 := by
      unfold groupTerms
      rw [List.length_map, List.length_range]
    intro hnil
    rw [hnil] at this
    simp at this
  · have : (groupTerms n ((List.range (2 ^ n)).filter fun t =>
        decide (t ∈ terms ∪ dc))).length = n + 1 := by
      unfold groupTerms
      rw [List.length_map, List.length_range]
    omega

/-- Every care term (in bounds, not a don't-care) is covered by some
returned prime implicant. -/
theorem find_prime_implicants_covers {n : Nat} {terms dc : Finset Nat} {form : Form}
    {primes : List Implicant} (h : find_prime_implicants n terms dc form = some primes)
    {t : Nat} (ht : t ∈ terms) (hdc : t ∉ dc) (hlt : t < 2 ^ n) :
    ∃ p ∈ primes, t ∈ Implicant.coveredTerms n p := by
  unfold find_prime_implicants at h
  apply fpiLoop_covers n dc _ _ _ _ h t hdc
  left
  have htl : t ∈ (List.range (2 ^ n)).filter fun t => decide (t ∈ terms ∪ dc) := by
    rw [List.mem_filter]
    exact ⟨List.mem_range.mpr hlt, by simp [Finset.mem_union_left _ ht]⟩
  obtain ⟨g, hg, hmem⟩ := mem_groupTerms_self htl hlt
  refine ⟨g, hg, Implicant.fromTerm t, hmem, ?_⟩
  rw [Implicant.coveredTerms_fromTerm hlt]
  exact Finset.mem_singleton_self t

/-- All returned prime implicants are well-formed and cover only admissible
terms. -/
theorem find_prime_implicants_good {n : Nat} {terms dc : Finset Nat} {form : Form}
    {primes : List Implicant} (h : find_prime_implicants n terms dc form = some primes)
    (hb : ∀ t ∈ terms ∪ dc, t < 2 ^ n) :
    ∀ p ∈ primes, GoodImp n (terms ∪ dc) p := by
  unfold find_prime_implicants at h
  apply fpiLoop_good n dc (terms ∪ dc) _ _ _ _ h
  · intro g hg a ha
    obtain ⟨t, htl, hta⟩ := groupTerms_forall g hg a ha
    subst hta
    rw [List.mem_filter] at htl
    have htmem : t ∈ terms ∪ dc := by simpa using htl.2
    have hlt : t < 2 ^ n := List.mem_range.mp htl.1
    constructor
    · exact Implicant.fromTerm_wf hlt
    · rw [Implicant.coveredTerms_fromTerm hlt]
      exact Finset.singleton_subset_iff.mpr htmem
  · intro p hp
    exact absurd hp (List.not_mem_nil p)

theorem mem_newCols {n : Nat} {primes : List Implicant} {dc : Finset Nat} {c : Nat} :
    c ∈ (Chart.new n primes dc).cols ↔
      c < 2 ^ n ∧ c ∉ dc ∧ ∃ p ∈ primes, covers n p c = true := by
  unfold Chart.new
  simp only [List.mem_filter, List.mem_range, Bool.and_eq_true, Bool.not_eq_true',
    decide_eq_false_iff_not, List.any_eq_true, and_assoc]

theorem mem_newRows {n : Nat} {primes : List Implicant} {dc : Finset Nat} {r : Implicant} :
    r ∈ (Chart.new n primes dc).rows ↔ r ∈ primes := List.mem_dedup

theorem newRows_nodup (n : Nat) (primes : List Implicant) (dc : Finset Nat) :
    (Chart.new n primes dc).rows.Nodup := List.nodup_dedup primes

/-- Coverage soundness read off the assertion gate (src/lib.rs line 397):
whenever `minimize_internal` returns, every returned solution passes
`check_solution`. -/
theorem minimize_internal_checked {n : Nat} {terms dc : Finset Nat} {form : Form}
    {fas ord : Bool} {sols : List (List Implicant)}
    (h : minimize_internal n terms dc form fas ord = some sols) :
    ∀ sol ∈ sols, terms ⊆ coveredBy n sol ∧ coveredBy n sol ⊆ terms ∪ dc := by
  unfold minimize_internal at h
  split at h
  · exact absurd h (by simp)
  · rename_i primes hprimes
    split at h
    rename_i eps residual hsimp
    split at h
    · rename_i hall
      injection h with h
      subst h
      intro sol hsol
      have hc := List.all_eq_true.mp hall sol hsol
      unfold check_solution at hc
      rw [Bool.and_eq_true, decide_eq_true_eq, decide_eq_true_eq] at hc
      exact hc
    · exact absurd h (by simp)

/-- Facts recovered from a successful validation (src/lib.rs lines
460-510): all terms are in bounds and the two term sets are disjoint. -/
theorem validate_input_ok {vars : List String} {t1 t2 : Finset Nat}
    (h : validate_input vars t1 t2 = .ok ()) :
    (∀ t ∈ t1 ∪ t2, t < 2 ^ vars.length) ∧ t1 ∩ t2 = ∅ := by
  unfold validate_input at h
  split at h
  · exact absurd h (by simp)
  · split at h
    · exact absurd h (by simp)
    · split at h
      · exact absurd h (by simp)
      · split at h
        · exact absurd h (by simp)
        · split at h
          · exact absurd h (by simp)
          · rename_i hoob hconf
            rw [not_not] at hoob hconf
            constructor
            · intro t ht
              by_contra hge
              rw [Nat.not_lt] at hge
              have : t ∈ (t1 ∪ t2).filter fun t => 2 ^ vars.length ≤ t :=
                Finset.mem_filter.mpr ⟨ht, hge⟩
              rw [hoob] at this
              exact absurd this (Finset.not_mem_empty t)
            · exact hconf

/-- The negated conditions of every validation check, recovered from a
successful validation. -/
theorem validate_input_ok_conds {vars : List String} {t1 t2 : Finset Nat}
    (h : validate_input vars t1 t2 = .ok ()) :
    (vars.isEmpty || decide (vars.length > 26)) = false ∧
    (vars.any fun v => v == "0" || v == "1" || v.isEmpty || v != strTrim v) = false ∧
    (vars.filter fun v => decide (2 ≤ vars.count v)).toFinset = ∅ ∧
    ((t1 ∪ t2).filter fun t => 2 ^ vars.length ≤ t) = ∅ ∧
    t1 ∩ t2 = ∅ := by
  unfold validate_input at h
  split at h
  · exact absurd h (by simp)
  · rename_i h1
    split at h
    · exact absurd h (by simp)
    · rename_i h2
      split at h
      · exact absurd h (by simp)
      · rename_i h3
        split at h
        · exact absurd h (by simp)
        · rename_i h4
          split at h
          · exact absurd h (by simp)
          · rename_i h5
            rw [Bool.not_eq_true] at h1 h2
            rw [not_not] at h3 h4 h5
            exact ⟨h1, h2, h3, h4, h5⟩

/-- Validation succeeds when every check passes. -/
theorem validate_input_eq_ok {vars : List String} {t1 t2 : Finset Nat}
    (h1 : (vars.isEmpty || decide (vars.length > 26)) = false)
    (h2 : (vars.any fun v => v == "0" || v == "1" || v.isEmpty || v != strTrim v) = false)
    (h3 : (vars.filter fun v => decide (2 ≤ vars.count v)).toFinset = ∅)
    (h4 : ((t1 ∪ t2).filter fun t => 2 ^ vars.length ≤ t) = ∅)
    (h5 : t1 ∩ t2 = ∅) :
    validate_input vars t1 t2 = .ok () := by
  unfold validate_input
  rw [if_neg (by simp [h1]), if_neg (by simp [h2]), if_neg (by simp [h3]),
    if_neg (by simp [h4]), if_neg (by simp [h5])]

/-- With `findAllSolutions` set, dominance reduction is skipped entirely,
so the unordered-iteration choice cannot influence the result. -/
theorem simplifyLoop_findAll_ord (n : Nat) (ord₁ ord₂ : Bool) :
    ∀ (fuel : Nat) (ch : Chart) (ess : List Implicant),
      simplifyLoop n true ord₁ fuel ch ess = simplifyLoop n true ord₂ fuel ch ess := by
  intro fuel
  induction fuel with
  | zero => intro ch ess; rfl
  | succ fuel ih =>
    intro ch ess
    cases hes : essentialStep n ch with
    | some rc =>
      obtain ⟨r, ch₁⟩ := rc
      simp only [simplifyLoop, hes]
      exact ih ch₁ (ess ++ [r])
    | none => simp [simplifyLoop, hes]

theorem minimize_internal_findAll_ord (n : Nat) (terms dc : Finset Nat) (form : Form)
    (ord₁ ord₂ : Bool) :
    minimize_internal n terms dc form true ord₁ = minimize_internal n terms dc form true ord₂ := by
  cases hp : find_prime_implicants n terms dc form with
  | none => simp only [minimize_internal, hp]
  | some primes =>
    have hs : (Chart.new n primes dc).simplify n true ord₁ =
        (Chart.new n primes dc).simplify n true ord₂ := by
      unfold Chart.simplify
      exact simplifyLoop_findAll_ord n ord₁ ord₂ _ _ _
    simp only [minimize_internal, hp, hs]

/-- Inversion of a successful run of the public entry point. -/
theorem minimizeWithOrd_ok_inv {vars : List String} {mts mxts : List Nat} {form : Form}
    {fas ord : Bool} {sols : List Solution}
    (h : minimizeWithOrd vars mts mxts form fas ord = some (.ok sols)) :
    validate_input vars mts.toFinset mxts.toFinset = .ok () ∧
    ∃ isols, minimize_internal vars.length
        (if form = SOP then mts.toFinset else mxts.toFinset)
        (get_dont_cares vars.length mts.toFinset mxts.toFinset) form fas ord = some isols ∧
      sols = isols.map fun s => Solution.new s vars form := by
  unfold minimizeWithOrd at h
  split at h
  · exact absurd h (by simp)
  · rename_i hv
    split at h
    · exact absurd h (by simp)
    · rename_i isols hint
      simp only [Option.some.injEq, Except.ok.injEq] at h
      exact ⟨hv, isols, hint, h.symm⟩

/-- Full correctness of the internal minimizer on admissible inputs: it
returns (the assertion never fires), and every returned solution is a
duplicate-free list in which each implicant is the only one covering some
required care term. -/
theorem minimize_internal_full (n : Nat) (terms dc : Finset Nat) (form : Form)
    (fas ord : Bool)
    (hb1 : ∀ t ∈ terms, t < 2 ^ n) (hb2 : ∀ t ∈ dc, t < 2 ^ n)
    (hdisj : ∀ t ∈ terms, t ∉ dc) :
    ∃ sols, minimize_internal n terms dc form fas ord = some sols ∧
      ∀ sol ∈ sols, sol.Nodup ∧
        ∀ x ∈ sol, ∃ c ∈ terms, covers n x c = true ∧
          ∀ y ∈ sol, y ≠ x → covers n y c = false := by
  cases hp : find_prime_implicants n terms dc form with
  | none =>
    have := find_prime_implicants_isSome n terms dc form
    rw [hp] at this
    exact absurd this (by simp)
  | some primes =>
    have hb : ∀ t ∈ terms ∪ dc, t < 2 ^ n := by
      intro t ht
      rcases Finset.mem_union.mp ht with ht | ht
      · exact hb1 t ht
      · exact hb2 t ht
    have hgood := find_prime_implicants_good hp hb
    have colsIff : ∀ c, c ∈ (Chart.new n primes dc).cols ↔ c ∈ terms := by
      intro c
      rw [mem_newCols]
      constructor
      · rintro ⟨hlt, hdcc, p, hpmem, hcov⟩
        rw [covers, decide_eq_true_eq] at hcov
        have := (hgood p hpmem).2 hcov
        rcases Finset.mem_union.mp this with h | h
        · exact h
        · exact absurd h hdcc
      · intro hct
        obtain ⟨p, hpmem, hcov⟩ := find_prime_implicants_covers hp hct (hdisj c hct) (hb1 c hct)
        exact ⟨hb1 c hct, hdisj c hct, p, hpmem, by rw [covers, decide_eq_true_eq]; exact hcov⟩
    rcases hsimp : (Chart.new n primes dc).simplify n fas ord with ⟨E, chF⟩
    have hsimp' : simplifyLoop n fas ord
        ((Chart.new n primes dc).rows.length + (Chart.new n primes dc).cols.length)
        (Chart.new n primes dc) [] = (E, chF) := hsimp
    obtain ⟨m1, m2, m3, m4, m5, m6, m7, m8⟩ :=
      simplifyLoop_master n fas ord _ _ (newRows_nodup n primes dc) E chF hsimp'
    -- every assembled candidate passes the coverage check
    have hsolrows : ∀ S ∈ Petrick.solve n chF, ∀ i, i ∈ E ++ S →
        i ∈ (Chart.new n primes dc).rows := by
      intro S hS i hi
      rcases List.mem_append.mp hi with hi | hi
      · exact (m4 i hi).1
      · exact m1 ((petrick_solve_spec n chF S hS).1 i hi)
    have hcheck : ∀ S ∈ Petrick.solve n chF,
        check_solution n terms dc (variableSort form (E ++ S)) = true := by
      intro S hS
      obtain ⟨pS_rows, pS_nd, pS_cov, pS_min⟩ := petrick_solve_spec n chF S hS
      have hmemiff : ∀ i, i ∈ variableSort form (E ++ S) ↔ i ∈ E ++ S := fun i =>
        (variableSort_perm form (E ++ S)).mem_iff
      unfold check_solution
      rw [Bool.and_eq_true, decide_eq_true_eq, decide_eq_true_eq]
      constructor
      · intro t ht
        obtain ⟨r', hr'or, hr'cov⟩ := m7 S pS_rows pS_cov t ((colsIff t).mpr ht)
        rw [mem_coveredBy]
        refine ⟨r', (hmemiff r').mpr (List.mem_append.mpr hr'or), ?_⟩
        rwa [covers, decide_eq_true_eq] at hr'cov
      · intro t ht
        rw [mem_coveredBy] at ht
        obtain ⟨i, hi, hti⟩ := ht
        have hirow := hsolrows S hS i ((hmemiff i).mp hi)
        have := (hgood i (mem_newRows.mp hirow)).2
        exact this hti
    refine ⟨((Petrick.solve n chF).map fun s => E ++ s).map (variableSort form), ?_, ?_⟩
    · simp only [minimize_internal, hp, hsimp]
      rw [if_pos]
      rw [List.all_eq_true]
      intro sol hsol
      simp only [List.mem_map] at hsol
      obtain ⟨s0, ⟨S, hS, hs0⟩, hsol⟩ := hsol
      subst hs0
      subst hsol
      exact hcheck S hS
    · intro sol hsol
      simp only [List.mem_map] at hsol
      obtain ⟨s0, ⟨S, hS, hs0⟩, hsol⟩ := hsol
      subst hs0
      subst hsol
      obtain ⟨pS_rows, pS_nd, pS_cov, pS_min⟩ := petrick_solve_spec n chF S hS
      have hmemiff : ∀ i, i ∈ variableSort form (E ++ S) ↔ i ∈ E ++ S := fun i =>
        (variableSort_perm form (E ++ S)).mem_iff
      have hdisjES : ∀ e ∈ E, e ∉ S := by
        intro e he hes
        exact (m4 e he).2 (pS_rows e hes)
      constructor
      · -- no duplicates
        have hnd : (E ++ S).Nodup := by
          rw [List.nodup_append]
          exact ⟨m5, pS_nd, fun e he => hdisjES e he⟩
        exact ((variableSort_perm form (E ++ S)).symm).nodup hnd
      · intro x hx
        rcases List.mem_append.mp ((hmemiff x).mp hx) with hxE | hxS
        · -- x is an essential prime implicant: its witness column
          obtain ⟨E₁, E₂, hEdec⟩ := List.append_of_mem hxE
          obtain ⟨c, hccols, hxcov, hE₁, hE₂, hchFr⟩ := m8 E₁ x E₂ hEdec
          refine ⟨c, (colsIff c).mp hccols, hxcov, ?_⟩
          intro y hy hyx
          rcases List.mem_append.mp ((hmemiff y).mp hy) with hyE | hyS
          · rw [hEdec] at hyE
            rcases List.mem_append.mp hyE with hy1 | hy2
            · exact hE₁ y hy1
            · rcases List.mem_cons.mp hy2 with rfl | hy2
              · exact absurd rfl hyx
              · exact hE₂ y hy2
          · exact hchFr y (pS_rows y hyS)
        · -- x sits in the Petrick covering: removing it uncovers a column
          have hTlen : (S.erase x).length < S.length := by
            rw [List.length_erase_of_mem hxS]
            have := List.length_pos.mpr (List.ne_nil_of_mem hxS)
            omega
          have hnotcov : ¬(∀ c ∈ chF.cols, ∃ r ∈ S.erase x, covers n r c = true) := by
            intro hcv
            exact pS_min (S.erase x) (List.erase_subset x S) hcv hTlen
          push_neg at hnotcov
          obtain ⟨c, hc, hcnone⟩ := hnotcov
          have hcterms : c ∈ terms := (colsIff c).mp (m2 hc)
          have hxcov : covers n x c = true := by
            obtain ⟨r, hrS, hrc⟩ := pS_cov c hc
            rcases Decidable.em (r = x) with rfl | hrx
            · exact hrc
            · exfalso
              have hrT : r ∈ S.erase x := (pS_nd.mem_erase_iff).mpr ⟨hrx, hrS⟩
              exact hcnone r hrT hrc
          refine ⟨c, hcterms, hxcov, ?_⟩
          intro y hy hyx
          rcases List.mem_append.mp ((hmemiff y).mp hy) with hyE | hyS
          · exact m6 y hyE c hc
          · have hyT : y ∈ S.erase x := (pS_nd.mem_erase_iff).mpr ⟨hyx, hyS⟩
            exact Bool.eq_false_iff.mpr (hcnone y hyT)

/-- C1: for every valid input and every solution returned by `minimize`,
the union of the covered-term sets of the solution's implicants is a
superset of the required care terms (minterms for SOP, maxterms for POS)
and a subset of the care terms united with the don't-care terms. -/
theorem C1_coverage_soundness (vars : List String) (mts mxts : List Nat) (form : Form)
    (fas : Bool) (sols : List Solution)
    (h : minimize vars mts mxts form fas = some (.ok sols)) :
    ∀ sol ∈ sols,
      (if form = SOP then mts.toFinset else mxts.toFinset) ⊆
          coveredBy vars.length sol.implicants ∧
        coveredBy vars.length sol.implicants ⊆
          (if form = SOP then mts.toFinset else mxts.toFinset) ∪
            get_dont_cares vars.length mts.toFinset mxts.toFinset := by
  obtain ⟨hv, isols, hint, hsols⟩ := minimizeWithOrd_ok_inv h
  subst hsols
  intro sol hsol
  rw [List.mem_map] at hsol
  obtain ⟨s, hs, rfl⟩ := hsol
  exact minimize_internal_checked hint s hs

/-- Witness for C1 at a concrete input: one variable, minterm 0, maxterm 1,
sum-of-products; the single solution is the implicant fixing the variable
to 0. -/
theorem C1_coverage_soundness_witness :
    (if SOP = SOP then ([0] : List Nat).toFinset else ([1] : List Nat).toFinset) ⊆
        coveredBy (["A"] : List String).length
          (Solution.new [Implicant.mk 0 0] ["A"] SOP).implicants ∧
      coveredBy (["A"] : List String).length
          (Solution.new [Implicant.mk 0 0] ["A"] SOP).implicants ⊆
        (if SOP = SOP then ([0] : List Nat).toFinset else ([1] : List Nat).toFinset) ∪
          get_dont_cares (["A"] : List String).length
            ([0] : List Nat).toFinset ([1] : List Nat).toFinset :=
  C1_coverage_soundness ["A"] [0] [1] SOP false [Solution.new [Implicant.mk 0 0] ["A"] SOP]
    (by decide) (Solution.new [Implicant.mk 0 0] ["A"] SOP) (List.mem_cons_self _ _)

/-- C2: removing any single implicant from a returned solution breaks
coverage of the required care terms. -/
theorem C2_minimality (vars : List String) (mts mxts : List Nat) (form : Form)
    (fas : Bool) (sols : List Solution)
    (h : minimize vars mts mxts form fas = some (.ok sols)) :
    ∀ sol ∈ sols, ∀ i, i < sol.implicants.length →
      ¬((if form = SOP then mts.toFinset else mxts.toFinset) ⊆
          coveredBy vars.length (sol.implicants.eraseIdx i)) := by
  obtain ⟨hv, isols, hint, hsols⟩ := minimizeWithOrd_ok_inv h
  obtain ⟨hb, _⟩ := validate_input_ok hv
  have hterms_sub : (if form = SOP then mts.toFinset else mxts.toFinset) ⊆
      mts.toFinset ∪ mxts.toFinset := by
    cases form
    · exact fun t ht => Finset.mem_union_left _ ht
    · exact fun t ht => Finset.mem_union_right _ ht
  have hb1 : ∀ t ∈ (if form = SOP then mts.toFinset else mxts.toFinset),
      t < 2 ^ vars.length := fun t ht => hb t (hterms_sub ht)
  have hb2 : ∀ t ∈ get_dont_cares vars.length mts.toFinset mxts.toFinset,
      t < 2 ^ vars.length := by
    intro t ht
    unfold get_dont_cares at ht
    rw [Finset.mem_sdiff, Finset.mem_range] at ht
    exact ht.1
  have hdisj2 : ∀ t ∈ (if form = SOP then mts.toFinset else mxts.toFinset),
      t ∉ get_dont_cares vars.length mts.toFinset mxts.toFinset := by
    intro t ht hdc
    unfold get_dont_cares at hdc
    rw [Finset.mem_sdiff] at hdc
    exact hdc.2 (hterms_sub ht)
  obtain ⟨isols', heq', hprops⟩ := minimize_internal_full vars.length
    (if form = SOP then mts.toFinset else mxts.toFinset)
    (get_dont_cares vars.length mts.toFinset mxts.toFinset) form fas true hb1 hb2 hdisj2
  rw [hint] at heq'
  injection heq' with heq'
  subst heq'
  subst hsols
  intro sol hsol i hi
  rw [List.mem_map] at hsol
  obtain ⟨s, hs, rfl⟩ := hsol
  obtain ⟨hnd, hwit⟩ := hprops s hs
  have hi' : i < s.length := hi
  show ¬((if form = SOP then mts.toFinset else mxts.toFinset) ⊆
    coveredBy vars.length (s.eraseIdx i))
  have hx : s.get ⟨i, hi'⟩ ∈ s := List.get_mem s i hi'
  obtain ⟨c, hc, hxcov, hothers⟩ := hwit _ hx
  intro hsub
  have hccov := hsub hc
  rw [mem_coveredBy] at hccov
  obtain ⟨y, hy, hcy⟩ := hccov
  obtain ⟨j, hj, hjne, hjy⟩ := List.mem_eraseIdx_iff_getElem.mp hy
  have hjy' : s.get ⟨j, hj⟩ = y := hjy
  have hys : y ∈ s := by
    rw [← hjy']
    exact List.get_mem s j hj
  have hyx : y ≠ s.get ⟨i, hi'⟩ := by
    intro hcontra
    apply hjne
    have hinj := List.nodup_iff_injective_getElem.mp hnd
    have hgeq : s.get ⟨j, hj⟩ = s.get ⟨i, hi'⟩ := by
      rw [hjy']
      exact hcontra
    have h2 : (⟨j, hj⟩ : Fin s.length) = ⟨i, hi'⟩ := hinj hgeq
    exact congrArg Fin.val h2
  have hfalse := hothers y hys hyx
  rw [covers, decide_eq_false_iff_not] at hfalse
  exact hfalse hcy

/-- Witness for C2 at a concrete input: removing the only implicant of the
unique solution leaves minterm 0 uncovered. -/
theorem C2_minimality_witness :
    ¬((if SOP = SOP then ([0] : List Nat).toFinset else ([1] : List Nat).toFinset) ⊆
        coveredBy (["A"] : List String).length
          ((Solution.new [Implicant.mk 0 0] ["A"] SOP).implicants.eraseIdx 0)) :=
  C2_minimality ["A"] [0] [1] SOP false [Solution.new [Implicant.mk 0 0] ["A"] SOP]
    (by decide) (Solution.new [Implicant.mk 0 0] ["A"] SOP) (List.mem_cons_self _ _)
    0 (by decide)

end QMC

namespace QMC

/-- C5: for every variable count and every pair of term sets, the
prime-implicant generation loop terminates: it returns a value (never
reaching the panic modelled by `none`), and the fixpoint condition — no
group in the current round had a member consumed — is reached after at
most `variableCount` rounds, at which point the loop stops by
construction. -/
theorem C5_prime_loop_terminates (n : Nat) (terms dc : Finset Nat) (form : Form) :
    (find_prime_implicants n terms dc form).isSome ∧
    ∃ k, k ≤ n ∧ anyCombined []
      (nextGroups^[k]
        (groupTerms n ((List.range (2 ^ n)).filter fun t => decide (t ∈ terms ∪ dc)))) =
      false := by
  refine ⟨find_prime_implicants_isSome n terms dc form, n, Nat.le_refl n, ?_⟩
  have hlen : ∀ (k : Nat) (gs : List (List Implicant)),
      (nextGroups^[k] gs).length = gs.length - k := by
    intro k
    induction k with
    | zero => intro gs; simp
    | succ k ihk =>
      intro gs
      rw [Function.iterate_succ_apply, ihk, length_nextGroups]
      omega
  have hinit : (groupTerms n
      ((List.range (2 ^ n)).filter fun t => decide (t ∈ terms ∪ dc))).length = n + 1 := by
    unfold groupTerms
    rw [List.length_map, List.length_range]
  have h1 : (nextGroups^[n]
      (groupTerms n ((List.range (2 ^ n)).filter fun t => decide (t ∈ terms ∪ dc)))).length
      = 1 := by
    rw [hlen, hinit]
    omega
  obtain ⟨g, hg⟩ := List.length_eq_one.mp h1
  rw [hg]
  exact anyCombined_singleton_nil g

/-- C6: for 2 variables, true-output terms {0,3} and false-output term {2}
(so the don't-care set is the complement {1}), in sum-of-products form the
prime implicants are exactly the two with pattern strings "0-" and "-1". -/
theorem C6_scenario_c :
    (find_prime_implicants 2 {0, 3} (get_dont_cares 2 {0, 3} {2}) SOP).map
      (fun l => (l.map (Implicant.pattern 2)).toFinset) = some {"0-", "-1"} := by
  decide

/-- C7: if input validation succeeds and no deadline is supplied, `minimize`
always returns a solution list and never an error (the only error possible
after computation starts belongs to the dropped deadline wrapper). -/
theorem C7_valid_input_no_error (vars : List String) (mts mxts : List Nat) (form : Form)
    (fas : Bool) (h : validate_input vars mts.toFinset mxts.toFinset = .ok ()) :
    ∃ sols, minimize vars mts mxts form fas = some (.ok sols) := by
  obtain ⟨hb, _⟩ := validate_input_ok h
  have hterms_sub : (if form = SOP then mts.toFinset else mxts.toFinset) ⊆
      mts.toFinset ∪ mxts.toFinset := by
    cases form
    · exact fun t ht => Finset.mem_union_left _ ht
    · exact fun t ht => Finset.mem_union_right _ ht
  have hb1 : ∀ t ∈ (if form = SOP then mts.toFinset else mxts.toFinset),
      t < 2 ^ vars.length := fun t ht => hb t (hterms_sub ht)
  have hb2 : ∀ t ∈ get_dont_cares vars.length mts.toFinset mxts.toFinset,
      t < 2 ^ vars.length := by
    intro t ht
    unfold get_dont_cares at ht
    rw [Finset.mem_sdiff, Finset.mem_range] at ht
    exact ht.1
  have hdisj2 : ∀ t ∈ (if form = SOP then mts.toFinset else mxts.toFinset),
      t ∉ get_dont_cares vars.length mts.toFinset mxts.toFinset := by
    intro t ht hdc
    unfold get_dont_cares at hdc
    rw [Finset.mem_sdiff] at hdc
    exact hdc.2 (hterms_sub ht)
  obtain ⟨isols, heq, _⟩ := minimize_internal_full vars.length
    (if form = SOP then mts.toFinset else mxts.toFinset)
    (get_dont_cares vars.length mts.toFinset mxts.toFinset) form fas true hb1 hb2 hdisj2
  refine ⟨isols.map fun s => Solution.new s vars form, ?_⟩
  unfold minimize minimizeWithOrd
  simp only [h, heq]

/-- Witness for C7 at a concrete input. -/
theorem C7_valid_input_no_error_witness :
    ∃ sols, minimize ["A"] [0] [1] SOP false = some (.ok sols) :=
  C7_valid_input_no_error ["A"] [0] [1] SOP false (by decide)

end QMC

namespace QMC

/-- C3 counterexample: the two term sets overlap on 4 = term 2... -/
theorem C3_counterexample :
    (([0, 2] : List Nat).toFinset ∩ ([2] : List Nat).toFinset ≠ ∅) ∧
    minimize ["A"] [0, 2] [2] SOP false = some (.error (.TermOutOfBounds {2} 1)) := by
  exact ⟨by decide, by decide⟩

/-- C3 (amended): a call whose two term sets overlap never returns a
solution list; when in addition the variable list is valid and every term
is in bounds, the error is `TermConflict` carrying the intersection. -/
theorem C3_conflict_error (vars : List String) (t1 t2 : List Nat) (form : Form) (fas : Bool)
    (hconf : t1.toFinset ∩ t2.toFinset ≠ ∅) :
    (∀ sols, minimize vars t1 t2 form fas ≠ some (.ok sols)) ∧
    (∀ sols, minimize_minterms vars t1 t2 fas ≠ some (.ok sols)) ∧
    (∀ sols, minimize_maxterms vars t1 t2 fas ≠ some (.ok sols)) ∧
    ((vars.isEmpty || decide (vars.length > 26)) = false →
      (vars.any fun v => v == "0" || v == "1" || v.isEmpty || v != strTrim v) = false →
      (vars.filter fun v => decide (2 ≤ vars.count v)).toFinset = ∅ →
      ((t1.toFinset ∪ t2.toFinset).filter fun t => 2 ^ vars.length ≤ t) = ∅ →
      minimize vars t1 t2 form fas =
          some (.error (.TermConflict (t1.toFinset ∩ t2.toFinset))) ∧
        minimize_minterms vars t1 t2 fas =
          some (.error (.TermConflict (t1.toFinset ∩ t2.toFinset))) ∧
        minimize_maxterms vars t1 t2 fas =
          some (.error (.TermConflict (t1.toFinset ∩ t2.toFinset)))) := by
  refine ⟨?_, ?_, ?_, ?_⟩
  · intro sols hok
    obtain ⟨hv, _⟩ := minimizeWithOrd_ok_inv hok
    exact hconf (validate_input_ok hv).2
  · intro sols hok
    unfold minimize_minterms at hok
    split at hok
    · exact absurd hok (by simp)
    · rename_i hv
      exact hconf (validate_input_ok hv).2
  · intro sols hok
    unfold minimize_maxterms at hok
    split at hok
    · exact absurd hok (by simp)
    · rename_i hv
      exact hconf (validate_input_ok hv).2
  · intro h1 h2 h3 h4
    have hverr : validate_input vars t1.toFinset t2.toFinset =
        .error (.TermConflict (t1.toFinset ∩ t2.toFinset)) := by
      unfold validate_input
      rw [if_neg (by simp [h1]), if_neg (by simp [h2]), if_neg (by simp [h3]),
        if_neg (by simp [h4]), if_pos hconf]
    refine ⟨?_, ?_, ?_⟩
    · unfold minimize minimizeWithOrd
      simp only [hverr]
    · unfold minimize_minterms
      simp only [hverr]
    · unfold minimize_maxterms
      simp only [hverr]

/-- Witness for the amended C3 at a concrete input where the variable list
is valid and all terms are in bounds. -/
theorem C3_conflict_error_witness :
    minimize ["A"] [0] [0] SOP false = some (.error (.TermConflict {0})) ∧
    minimize_minterms ["A"] [0] [0] false = some (.error (.TermConflict {0})) := by
  have h := (C3_conflict_error ["A"] [0] [0] SOP false (by decide)).2.2.2
    (by decide) (by decide) (by decide) (by decide)
  have hpay : (([0] : List Nat).toFinset ∩ ([0] : List Nat).toFinset) = ({0} : Finset Nat) := by
    decide
  rw [hpay] at h
  exact ⟨h.1, h.2.1⟩

/-- C4 counterexample: with `find_all_solutions = false`, the two
spec-allowed dominance tie-break orders return different (equally minimal)
solution sets for the same input, so the set of returned solutions is not
invariant across runs. -/
theorem C4_counterexample :
    minimizeWithOrd ["A", "B"] [1] [2] SOP false true =
        some (.ok [Solution.new [Implicant.mk 1 2] ["A", "B"] SOP]) ∧
      minimizeWithOrd ["A", "B"] [1] [2] SOP false false =
        some (.ok [Solution.new [Implicant.mk 0 1] ["A", "B"] SOP]) ∧
      minimizeWithOrd ["A", "B"] [1] [2] SOP false true ≠
        minimizeWithOrd ["A", "B"] [1] [2] SOP false false := by
  exact ⟨by decide, by decide, by decide⟩

/-- C4 (amended): when `find_all_solutions` is true, dominance reduction is
skipped and the result is independent of the unordered-set iteration
choice, so the set of returned solutions is invariant across runs; when
false, the returned solution may depend on the dominance tie-break left
unspecified by the source. -/
theorem C4_all_solutions_invariant (vars : List String) (mts mxts : List Nat)
    (form : Form) (ord₁ ord₂ : Bool) :
    minimizeWithOrd vars mts mxts form true ord₁ =
      minimizeWithOrd vars mts mxts form true ord₂ := by
  unfold minimizeWithOrd
  cases hv : validate_input vars mts.toFinset mxts.toFinset with
  | error e => rfl
  | ok u =>
    have hord := minimize_internal_findAll_ord vars.length
      (if form = SOP then mts.toFinset else mxts.toFinset)
      (get_dont_cares vars.length mts.toFinset mxts.toFinset) form ord₁ ord₂
    cases u
    rw [hord]

end QMC

namespace QMC

/-- C9: on valid input, `minimize` in SOP form agrees with
`minimize_minterms` supplied with the complement of minterms and maxterms
as explicit don't-cares; both reach the internal minimization with equal
arguments. -/
theorem C9_minterms_equivalence (vars : List String) (mts mxts dcList : List Nat)
    (fas : Bool)
    (hval : validate_input vars mts.toFinset mxts.toFinset = .ok ())
    (hdc : dcList.toFinset = get_dont_cares vars.length mts.toFinset mxts.toFinset) :
    minimize vars mts mxts SOP fas = minimize_minterms vars mts dcList fas := by
  obtain ⟨h1, h2, h3, _, _⟩ := validate_input_ok_conds hval
  obtain ⟨hb, _⟩ := validate_input_ok hval
  have hval2 : validate_input vars mts.toFinset dcList.toFinset = .ok () := by
    apply validate_input_eq_ok h1 h2 h3
    · rw [Finset.filter_eq_empty_iff]
      intro t ht
      rw [Finset.mem_union] at ht
      rw [Nat.not_le]
      rcases ht with ht | ht
      · exact hb t (Finset.mem_union_left _ ht)
      · rw [hdc] at ht
        unfold get_dont_cares at ht
        rw [Finset.mem_sdiff, Finset.mem_range] at ht
        exact ht.1
    · rw [Finset.eq_empty_iff_forall_not_mem]
      intro t ht
      rw [Finset.mem_inter] at ht
      have := ht.2
      rw [hdc] at this
      unfold get_dont_cares at this
      rw [Finset.mem_sdiff] at this
      exact this.2 (Finset.mem_union_left _ ht.1)
  unfold minimize minimizeWithOrd minimize_minterms
  have hval2' : validate_input vars mts.toFinset
      (get_dont_cares vars.length mts.toFinset mxts.toFinset) = .ok () := by
    rw [← hdc]
    exact hval2
  simp only [hval, hdc, hval2', reduceIte]

/-- Witness for C9: the documentation example — 3 variables, minterms
{0,5}, maxterms {1,3,4,6}, don't-cares {2,7}. -/
theorem C9_minterms_equivalence_witness :
    minimize ["A", "B", "C"] [0, 5] [1, 3, 4, 6] SOP false =
      minimize_minterms ["A", "B", "C"] [0, 5] [2, 7] false :=
  C9_minterms_equivalence ["A", "B", "C"] [0, 5] [1, 3, 4, 6] [2, 7] false
    (by decide) (by decide)

/-- C10: the validation checks run in a fixed precedence order —
variable count, variable names, duplicate variables, terms out of bounds,
term conflicts — and the first failing check determines the error, so an
input violating several rules reports the earliest one (e.g. overlap plus
an out-of-bounds term yields `TermOutOfBounds`, not `TermConflict`). -/
theorem C10_validation_precedence (vars : List String) (t1 t2 : Finset Nat) :
    ((vars.isEmpty || decide (vars.length > 26)) = true →
      validate_input vars t1 t2 = .error (.InvalidVariableCount vars.length)) ∧
    ((vars.isEmpty || decide (vars.length > 26)) = false →
      (vars.any fun v => v == "0" || v == "1" || v.isEmpty || v != strTrim v) = true →
      validate_input vars t1 t2 = .error .InvalidVariable) ∧
    ((vars.isEmpty || decide (vars.length > 26)) = false →
      (vars.any fun v => v == "0" || v == "1" || v.isEmpty || v != strTrim v) = false →
      (vars.filter fun v => decide (2 ≤ vars.count v)).toFinset ≠ ∅ →
      validate_input vars t1 t2 =
        .error (.DuplicateVariables (vars.filter fun v => decide (2 ≤ vars.count v)).toFinset)) ∧
    ((vars.isEmpty || decide (vars.length > 26)) = false →
      (vars.any fun v => v == "0" || v == "1" || v.isEmpty || v != strTrim v) = false →
      (vars.filter fun v => decide (2 ≤ vars.count v)).toFinset = ∅ →
      ((t1 ∪ t2).filter fun t => 2 ^ vars.length ≤ t) ≠ ∅ →
      validate_input vars t1 t2 =
        .error (.TermOutOfBounds ((t1 ∪ t2).filter fun t => 2 ^ vars.length ≤ t)
          vars.length)) ∧
    ((vars.isEmpty || decide (vars.length > 26)) = false →
      (vars.any fun v => v == "0" || v == "1" || v.isEmpty || v != strTrim v) = false →
      (vars.filter fun v => decide (2 ≤ vars.count v)).toFinset = ∅ →
      ((t1 ∪ t2).filter fun t => 2 ^ vars.length ≤ t) = ∅ →
      t1 ∩ t2 ≠ ∅ →
      validate_input vars t1 t2 = .error (.TermConflict (t1 ∩ t2))) := by
  refine ⟨?_, ?_, ?_, ?_, ?_⟩
  · intro h1
    unfold validate_input
    rw [if_pos h1]
  · intro h1 h2
    unfold validate_input
    rw [if_neg (by simp [h1]), if_pos h2]
  · intro h1 h2 h3
    unfold validate_input
    rw [if_neg (by simp [h1]), if_neg (by simp [h2]), if_pos h3]
  · intro h1 h2 h3 h4
    unfold validate_input
    rw [if_neg (by simp [h1]), if_neg (by simp [h2]), if_neg (by simp [h3]), if_pos h4]
  · intro h1 h2 h3 h4 h5
    unfold validate_input
    rw [if_neg (by simp [h1]), if_neg (by simp [h2]), if_neg (by simp [h3]),
      if_neg (by simp [h4]), if_pos h5]

/-- Witness for C10: an input whose term sets overlap and also contain an
out-of-bounds term yields `TermOutOfBounds`, and a pure overlap yields
`TermConflict`. -/
theorem C10_validation_precedence_witness :
    validate_input ["A"] {0, 2} {2} = .error (.TermOutOfBounds {2} 1) ∧
    validate_input ["A"] {0} {0} = .error (.TermConflict {0}) := by
  constructor
  · have h := (C10_validation_precedence ["A"] {0, 2} {2}).2.2.2.1
      (by decide) (by decide) (by decide) (by decide)
    have hpay : ((({0, 2} : Finset Nat) ∪ {2}).filter
        fun t => 2 ^ (["A"] : List String).length ≤ t) = ({2} : Finset Nat) := by decide
    rw [hpay] at h
    exact h
  · have h := (C10_validation_precedence ["A"] {0} {0}).2.2.2.2
      (by decide) (by decide) (by decide) (by decide) (by decide)
    have hpay : (({0} : Finset Nat) ∩ {0}) = ({0} : Finset Nat) := by decide
    rw [hpay] at h
    exact h

end QMC
